import Mathlib

/-!
# Striped hash map and reader-writer lock: embedding and properties

Sources embedded here:

* `src/hashmap/hashmap.h`  : `HashMap<K, V, SZ, Hash>` with `hash_fn`, the constructor,
  `insert_kv`, `lookup_k`, `delete_k`;
* `src/locks/rw_lock.cpp`  : `RWLock` with `reader_lock`, `reader_unlock`, `writer_lock`,
  `write_unlock`;
* `src/locks/rw_lock.h`    : the wrappers `RWLock::read` and `RWLock::write`;
* `app/cache.cpp`          : `CacheFunction::change_ratio`.

Conventions.

* The template parameter `SZ` and the member `hasher` are explicit arguments `SZ : Nat` and
  `hasher : K → Nat` (a Lean function is deterministic and pure, which is what the map
  requires of `Hash`).  `operator==` on keys is decidable equality on `K`.
* The member `hash_map` (a `std::vector` of `std::vector<std::pair<K, V>>`) is a list of
  buckets, each bucket a list of pairs in chain order.  The constructor resizes it to `SZ` and
  no member function changes its length.  Indexing `hash_map[i]` outside the vector is
  undefined in C++; the embedding reads an empty bucket and writes nothing there.
* The map operations are embedded as they run in one thread: the closures passed to
  `RWLock::write` / `RWLock::read` are executed once and their result is returned.
* The four `size_t` counters of `RWLock` are natural numbers; `+= 1` and `-= 1` wrap
  modulo `2 ^ 64`.
-/

/-! ## Definitions: the map -/

/-- Member data of `HashMap` that the operations read and write: `hash_map`. -/
structure HashMap (K V : Type) where
  hash_map : List (List (K × V))
deriving DecidableEq

namespace HashMap

variable {K V : Type} [DecidableEq K]

/-- Embeds `hash_fn`: `hasher(key) % SZ`. -/
def hash_fn (SZ : Nat) (hasher : K → Nat) (key : K) : Nat :=
  hasher key % SZ

/-- Embeds the constructor: `hash_map.resize(SZ)` gives `SZ` empty buckets. -/
def new (K V : Type) (SZ : Nat) : HashMap K V :=
  ⟨List.replicate SZ []⟩

/-- Reads `hash_map[i]`. -/
def bucket_at (m : HashMap K V) (i : Nat) : List (K × V) :=
  m.hash_map.getD i []

/-- The range-for loop of `insert_kv`: the first entry whose key equals `key` gets `value`
and the loop breaks; the result is the bucket after the loop and the flag `found`. -/
def insert_scan (key : K) (value : V) : List (K × V) → List (K × V) × Bool
  | [] => ([], false)
  | (k, v) :: rest =>
    if k = key then ((k, value) :: rest, true)
    else ((k, v) :: (insert_scan key value rest).1, (insert_scan key value rest).2)

/-- Body of the closure of `insert_kv` on the bucket: the loop, then `emplace_back(key, value)`
when nothing was found. -/
def insert_bucket (key : K) (value : V) (bucket : List (K × V)) : List (K × V) :=
  if (insert_scan key value bucket).2 then (insert_scan key value bucket).1
  else (insert_scan key value bucket).1 ++ [(key, value)]

/-- Embeds `insert_kv`. -/
def insert_kv (SZ : Nat) (hasher : K → Nat) (m : HashMap K V) (key : K) (value : V) :
    HashMap K V :=
  let hash_val := hash_fn SZ hasher key
  ⟨m.hash_map.set hash_val (insert_bucket key value (m.bucket_at hash_val))⟩

/-- The range-for loop of `lookup_k`: the value of the first entry whose key equals `key`. -/
def lookup_scan (key : K) : List (K × V) → Option V
  | [] => none
  | (k, v) :: rest => if k = key then some v else lookup_scan key rest

/-- Embeds `lookup_k`. -/
def lookup_k (SZ : Nat) (hasher : K → Nat) (m : HashMap K V) (key : K) : Option V :=
  lookup_scan key (m.bucket_at (hash_fn SZ hasher key))

/-- The range `[bucket.begin(), it)` left by `std::remove_if` with the predicate
`curr.first == key`: the entries with another key, in their original order. -/
def remove_if_key (key : K) (bucket : List (K × V)) : List (K × V) :=
  bucket.filter (fun curr => !decide (curr.1 = key))

/-- Embeds `delete_k`: `it` is at offset `(remove_if_key key bucket).length`, `bucket.end()` at
offset `bucket.length`; `found` is `it != bucket.end()`; `erase(it, end)` keeps the front. -/
def delete_k (SZ : Nat) (hasher : K → Nat) (m : HashMap K V) (key : K) :
    HashMap K V × Bool :=
  let hash_val := hash_fn SZ hasher key
  let bucket := m.bucket_at hash_val
  let kept := remove_if_key key bucket
  let found := kept.length != bucket.length
  (⟨m.hash_map.set hash_val kept⟩, found)

/-- A call of one of the three public operations. -/
inductive Op (K V : Type) where
  | insert (key : K) (value : V)
  | lookup (key : K)
  | delete (key : K)
deriving DecidableEq

/-- What a call returns: nothing, an optional value, or a flag. -/
inductive Ret (V : Type) where
  | unit
  | value (o : Option V)
  | flag (b : Bool)
deriving DecidableEq

/-- Key argument of a call. -/
def Op.key : Op K V → K
  | .insert key _ => key
  | .lookup key => key
  | .delete key => key

/-- Whether a call is an `insert_kv` with a key equal to `key`. -/
def Op.inserts (key : K) : Op K V → Bool
  | .insert k _ => decide (k = key)
  | .lookup _ => false
  | .delete _ => false

/-- One call on a map: the map afterwards and what the call returned. -/
def call (SZ : Nat) (hasher : K → Nat) (m : HashMap K V) : Op K V → HashMap K V × Ret V
  | .insert key value => (insert_kv SZ hasher m key value, .unit)
  | .lookup key => (m, .value (lookup_k SZ hasher m key))
  | .delete key => ((delete_k SZ hasher m key).1, .flag (delete_k SZ hasher m key).2)

/-- A finite sequence of calls, one after another: the map at the end. -/
def run (SZ : Nat) (hasher : K → Nat) (m : HashMap K V) : List (Op K V) → HashMap K V
  | [] => m
  | op :: ops => run SZ hasher (call SZ hasher m op).1 ops

/-- Number of entries of one bucket whose key equals `key`. -/
def count_in_bucket (key : K) (bucket : List (K × V)) : Nat :=
  bucket.countP (fun e => decide (e.1 = key))

/-- Number of stored entries whose key equals `key`, summed over all buckets. -/
def count_key (key : K) (m : HashMap K V) : Nat :=
  (m.hash_map.map (count_in_bucket key)).sum

/-- States reachable from the newly constructed map by a finite sequence of calls. -/
def Reachable (SZ : Nat) (hasher : K → Nat) (m : HashMap K V) : Prop :=
  ∃ ops : List (Op K V), m = run SZ hasher (new K V SZ) ops

/-- A bucket at index `i` is in order when each of its entries has a key that hashes to `i`
and no two of its entries have the same key. -/
def bucket_ok (SZ : Nat) (hasher : K → Nat) (i : Nat) (bucket : List (K × V)) : Prop :=
  (∀ e ∈ bucket, hash_fn SZ hasher e.1 = i) ∧ (bucket.map Prod.fst).Nodup

/-- Every bucket of the map is in order. -/
def all_buckets_ok (SZ : Nat) (hasher : K → Nat) (m : HashMap K V) : Prop :=
  ∀ i : Nat, bucket_ok SZ hasher i (m.bucket_at i)

/-- No entry of any bucket has a key equal to `key`. -/
def key_absent (key : K) (m : HashMap K V) : Prop :=
  ∀ bucket ∈ m.hash_map, ∀ e ∈ bucket, e.1 ≠ key

/-- A finite sequence of calls, one after another: the returned values in call order. -/
def results (SZ : Nat) (hasher : K → Nat) (m : HashMap K V) : List (Op K V) → List (Ret V)
  | [] => []
  | op :: ops => (call SZ hasher m op).2 :: results SZ hasher (call SZ hasher m op).1 ops

/-- Abstraction of the bucket array to a partial function on keys: a key maps to the value of
the first entry with that key in bucket `hash_fn key`, and to nothing when that bucket has no
such entry. -/
def abstraction (SZ : Nat) (hasher : K → Nat) (m : HashMap K V) : K → Option V :=
  fun key =>
    ((m.bucket_at (hash_fn SZ hasher key)).find? (fun e => decide (e.1 = key))).map Prod.snd

end HashMap

/-! ## Definitions: the lock -/

/-- The four counters of `RWLock` (the mutex and the two condition variables carry no data). -/
structure RWLock where
  readers_ : Nat
  writers_ : Nat
  waiting_readers_ : Nat
  waiting_writers_ : Nat
deriving DecidableEq

namespace RWLock

/-- Number of values of `size_t`. -/
def SIZE_T_MOD : Nat := 2 ^ 64

/-- The statement `x += 1` on a `size_t`. -/
def incr (x : Nat) : Nat := (x + 1) % SIZE_T_MOD

/-- The statement `x -= 1` on a `size_t`. -/
def decr (x : Nat) : Nat := (x + (SIZE_T_MOD - 1)) % SIZE_T_MOD

/-- Embeds the constructor `RWLock::RWLock()`: all four counters are zero. -/
def init : RWLock := ⟨0, 0, 0, 0⟩

/-- Condition tested by `reader_lock`, in its `if` and in its `while`:
`writers_ > 0 || waiting_writers_ > 0`. -/
def reader_blocked (s : RWLock) : Bool :=
  decide (s.writers_ > 0) || decide (s.waiting_writers_ > 0)

/-- Condition tested by `writer_lock`, in its `if` and in its `while`:
`readers_ > 0 || writers_ > 0`. -/
def writer_blocked (s : RWLock) : Bool :=
  decide (s.readers_ > 0) || decide (s.writers_ > 0)

/-- Embeds `reader_lock` from taking the mutex to its first release of the mutex: either the
call returns with `readers_ += 1` (flag `true`), or the thread has done
`waiting_readers_ += 1` and sleeps in `pthread_cond_wait` (flag `false`). -/
def reader_lock_enter (s : RWLock) : RWLock × Bool :=
  if reader_blocked s then
    ({ s with waiting_readers_ := incr s.waiting_readers_ }, false)
  else
    ({ s with readers_ := incr s.readers_ }, true)

/-- Embeds `reader_lock` from a return of `pthread_cond_wait` to the next release of the mutex:
the `while` condition is tested again; either the thread sleeps again (flag `false`), or it
does `waiting_readers_ -= 1`, `readers_ += 1` and the call returns (flag `true`). -/
def reader_lock_resume (s : RWLock) : RWLock × Bool :=
  if reader_blocked s then
    (s, false)
  else
    ({ s with waiting_readers_ := decr s.waiting_readers_, readers_ := incr s.readers_ }, true)

/-- Embeds `writer_lock` from taking the mutex to its first release of the mutex: either the
call returns with `writers_ += 1` (flag `true`), or the thread has done
`waiting_writers_ += 1` and sleeps in `pthread_cond_wait` (flag `false`). -/
def writer_lock_enter (s : RWLock) : RWLock × Bool :=
  if writer_blocked s then
    ({ s with waiting_writers_ := incr s.waiting_writers_ }, false)
  else
    ({ s with writers_ := incr s.writers_ }, true)

/-- Embeds `writer_lock` from a return of `pthread_cond_wait` to the next release of the mutex:
either the thread sleeps again (flag `false`), or it does `waiting_writers_ -= 1`,
`writers_ += 1` and the call returns (flag `true`). -/
def writer_lock_resume (s : RWLock) : RWLock × Bool :=
  if writer_blocked s then
    (s, false)
  else
    ({ s with waiting_writers_ := decr s.waiting_writers_, writers_ := incr s.writers_ }, true)

/-- What an unlock does to the condition variables. -/
inductive Wake where
  | nothing
  | broadcast_write_cond
  | signal_write_cond
  | broadcast_read_cond
deriving DecidableEq

/-- Embeds `reader_unlock`: `readers_ -= 1`, then `pthread_cond_broadcast(&write_cond)` when
`waiting_writers_ > 0`. -/
def reader_unlock (s : RWLock) : RWLock × Wake :=
  ({ s with readers_ := decr s.readers_ },
    if s.waiting_writers_ > 0 then Wake.broadcast_write_cond else Wake.nothing)

/-- Embeds `write_unlock`: `writers_ -= 1`, then `pthread_cond_signal(&write_cond)` when
`waiting_writers_ > 0`, else `pthread_cond_broadcast(&read_cond)` when
`waiting_readers_ > 0`. -/
def write_unlock (s : RWLock) : RWLock × Wake :=
  ({ s with writers_ := decr s.writers_ },
    if s.waiting_writers_ > 0 then Wake.signal_write_cond
    else if s.waiting_readers_ > 0 then Wake.broadcast_read_cond
    else Wake.nothing)

/-- Atomic steps of the lock, one per stretch of code executed under the mutex. -/
inductive Event where
  | reader_enter
  | reader_resume
  | reader_unlock
  | writer_enter
  | writer_resume
  | write_unlock
deriving DecidableEq

/-- Step function on the counters.  Entering is always possible.  The other steps need a thread
in the right place: a resume needs a thread sleeping in the corresponding wait
(`waiting_readers_ > 0`, `waiting_writers_ > 0`), and a release is paired with an earlier
admission that was not yet released (`readers_ > 0`, `writers_ > 0`).  A return of
`pthread_cond_wait` may be spurious, so a resume is not tied to a signal. -/
def step (s : RWLock) : Event → Option RWLock
  | .reader_enter => some (reader_lock_enter s).1
  | .reader_resume => if 0 < s.waiting_readers_ then some (reader_lock_resume s).1 else none
  | .reader_unlock => if 0 < s.readers_ then some (reader_unlock s).1 else none
  | .writer_enter => some (writer_lock_enter s).1
  | .writer_resume => if 0 < s.waiting_writers_ then some (writer_lock_resume s).1 else none
  | .write_unlock => if 0 < s.writers_ then some (write_unlock s).1 else none

/-- A finite sequence of steps; `none` when some step is not possible. -/
def exec (s : RWLock) : List Event → Option RWLock
  | [] => some s
  | e :: es => (step s e).bind (fun t => exec t es)

/-- States reachable from the initial state. -/
def Reachable (s : RWLock) : Prop :=
  ∃ es : List Event, exec init es = some s

/-- Embeds `RWLock::read` (`rw_lock.h`) for a call that is admitted without waiting.  The
wrapped callable does not touch the lock, so it is given by its outcome `func`: a returned
value or a thrown error.  After `reader_lock()`, the `try` block runs the callable and then
`reader_unlock()` and returns the result; the `catch (...)` block runs `reader_unlock()` and
rethrows.  The result is the lock afterwards and what the call returns or throws; `none` when
`reader_lock()` has to wait, which needs other threads to end. -/
def read {ε α : Type} (s : RWLock) (func : Except ε α) : Option (RWLock × Except ε α) :=
  if (reader_lock_enter s).2 then
    match func with
    | .ok result => some ((reader_unlock (reader_lock_enter s).1).1, .ok result)
    | .error thrown => some ((reader_unlock (reader_lock_enter s).1).1, .error thrown)
  else none

/-- Embeds `RWLock::write` (`rw_lock.h`) for a call that is admitted without waiting, in the
same way as `read`: `writer_lock()`, the callable, then `write_unlock()` on the normal path
and in the `catch (...)` block before the rethrow. -/
def write {ε α : Type} (s : RWLock) (func : Except ε α) : Option (RWLock × Except ε α) :=
  if (writer_lock_enter s).2 then
    match func with
    | .ok result => some ((write_unlock (writer_lock_enter s).1).1, .ok result)
    | .error thrown => some ((write_unlock (writer_lock_enter s).1).1, .error thrown)
  else none

end RWLock

/-! ## Definitions: the memoizing wrapper -/

namespace CacheFunction

variable {K V : Type} [DecidableEq K]

/-- Embeds `CacheFunction::change_ratio` (`app/cache.cpp`).  The key type `custom_t` with its
`operator==` is a type `K` with decidable equality, `get_ratio` is a function of the snapshot
and the member `hash_map` is passed in and returned.  A hit of `lookup_k` returns the stored
value; a miss computes `get_ratio`, stores it with `insert_kv` and returns it. -/
def change_ratio (SZ : Nat) (hasher : K → Nat) (get_ratio : K → V) (hash_map : HashMap K V)
    (snapshot : K) : HashMap K V × V :=
  match HashMap.lookup_k SZ hasher hash_map snapshot with
  | some ret => (hash_map, ret)
  | none =>
    (HashMap.insert_kv SZ hasher hash_map snapshot (get_ratio snapshot), get_ratio snapshot)

/-- A finite sequence of `change_ratio` calls: the map at the end and the returned values in
call order. -/
def change_ratios (SZ : Nat) (hasher : K → Nat) (get_ratio : K → V) (hash_map : HashMap K V) :
    List K → HashMap K V × List V
  | [] => (hash_map, [])
  | snapshot :: rest =>
    ((change_ratios SZ hasher get_ratio
        (change_ratio SZ hasher get_ratio hash_map snapshot).1 rest).1,
      (change_ratio SZ hasher get_ratio hash_map snapshot).2 ::
        (change_ratios SZ hasher get_ratio
          (change_ratio SZ hasher get_ratio hash_map snapshot).1 rest).2)

end CacheFunction

/-! ## Definitions: the abstract finite map

The specification side of the refinement: a map is a partial function from keys to values,
`insert_kv` is point update, `delete_k` is point removal returning whether the key was in the
domain, `lookup_k` is function application.  Nothing here mentions buckets, the bucket count
or the hash function. -/

namespace AbstractMap

variable {K V : Type} [DecidableEq K]

/-- The empty partial function. -/
def empty (K V : Type) : K → Option V :=
  fun _ => none

/-- Point update: `key` maps to `value`, every other key as before. -/
def update (f : K → Option V) (key : K) (value : V) : K → Option V :=
  fun k => if k = key then some value else f k

/-- Point removal: `key` maps to nothing, every other key as before. -/
def remove (f : K → Option V) (key : K) : K → Option V :=
  fun k => if k = key then none else f k

/-- One call on the abstract map: the map afterwards and what the call returns. -/
def call (f : K → Option V) : HashMap.Op K V → (K → Option V) × HashMap.Ret V
  | .insert key value => (update f key value, .unit)
  | .lookup key => (f, .value (f key))
  | .delete key => (remove f key, .flag (f key).isSome)

/-- A finite sequence of calls on the abstract map: the map at the end. -/
def run (f : K → Option V) : List (HashMap.Op K V) → (K → Option V)
  | [] => f
  | op :: ops => run (call f op).1 ops

/-- A finite sequence of calls on the abstract map: the returned values in call order. -/
def results (f : K → Option V) : List (HashMap.Op K V) → List (HashMap.Ret V)
  | [] => []
  | op :: ops => (call f op).2 :: results (call f op).1 ops

end AbstractMap

/-! ## Theorems: the map -/

namespace HashMap

variable {K V : Type}

theorem bucket_at_set (m : HashMap K V) (i j : Nat) (b : List (K × V)) :
    bucket_at (⟨m.hash_map.set i b⟩ : HashMap K V) j
      = if i = j ∧ i < m.hash_map.length then b else bucket_at m j := by
  unfold bucket_at
  by_cases hij : i = j
  · subst hij
    by_cases hlt : i < m.hash_map.length
    · simp [hlt, List.getElem?_set_self hlt]
    · have hle : m.hash_map.length ≤ i := Nat.le_of_not_lt hlt
      simp [hlt, List.set_eq_of_length_le hle]
  · simp [hij, List.getElem?_set_ne hij]

theorem hash_fn_lt (SZ : Nat) (hasher : K → Nat) (key : K) (hSZ : 0 < SZ) :
    hash_fn SZ hasher key < SZ :=
  Nat.mod_lt _ hSZ

theorem bucket_at_of_le (m : HashMap K V) (i : Nat) (h : m.hash_map.length ≤ i) :
    m.bucket_at i = [] := by
  unfold bucket_at
  simp [List.getElem?_eq_none h]

theorem bucket_at_mem (m : HashMap K V) (i : Nat) (h : i < m.hash_map.length) :
    m.bucket_at i ∈ m.hash_map := by
  unfold bucket_at
  simp [List.getElem?_eq_getElem h]

theorem all_buckets_ok_new (SZ : Nat) (hasher : K → Nat) :
    all_buckets_ok SZ hasher (new K V SZ) := by
  intro i
  have hb : (new K V SZ).bucket_at i = [] := by
    unfold bucket_at new
    by_cases hi : i < SZ
    · simp [List.getElem?_replicate, hi]
    · simp [List.getElem?_replicate, hi]
  rw [hb]
  exact ⟨by simp, by simp⟩

theorem set_bucket_at_self (m : HashMap K V) (i : Nat) :
    (⟨m.hash_map.set i (m.bucket_at i)⟩ : HashMap K V) = m := by
  cases m with
  | mk bs =>
    simp only [bucket_at, HashMap.mk.injEq]
    by_cases hi : i < bs.length
    · apply List.ext_getElem?
      intro j
      by_cases hij : i = j
      · subst hij
        simp [List.getElem?_set_self hi, List.getElem?_eq_getElem hi]
      · simp [List.getElem?_set_ne hij]
    · exact List.set_eq_of_length_le (Nat.le_of_not_lt hi)

variable [DecidableEq K]

theorem lookup_scan_insert_bucket_same (key : K) (value : V) (bucket : List (K × V)) :
    lookup_scan key (insert_bucket key value bucket) = some value := by
  induction bucket with
  | nil => simp [insert_bucket, insert_scan, lookup_scan]
  | cons e rest ih =>
    obtain ⟨k, v⟩ := e
    by_cases hk : k = key
    · simp [insert_bucket, insert_scan, lookup_scan, hk]
    · unfold insert_bucket at ih ⊢
      simp only [insert_scan, hk, if_false]
      by_cases hf : (insert_scan key value rest).2 = true
      · simp only [hf, if_true] at ih ⊢
        simp [lookup_scan, hk, ih]
      · simp only [hf, if_false] at ih ⊢
        simp only [Bool.false_eq_true, if_false, List.cons_append, lookup_scan, hk]
        exact ih

theorem insert_scan_snd (key : K) (value : V) (bucket : List (K × V)) :
    (insert_scan key value bucket).2 = true ↔ ∃ e ∈ bucket, e.1 = key := by
  induction bucket with
  | nil => simp [insert_scan]
  | cons e rest ih =>
    obtain ⟨k, v⟩ := e
    by_cases hk : k = key
    · simp [insert_scan, hk]
    · simp [insert_scan, hk, ih]

theorem lookup_scan_insert_scan_other (key key' : K) (value : V) (hne : key' ≠ key)
    (bucket : List (K × V)) :
    lookup_scan key (insert_scan key' value bucket).1 = lookup_scan key bucket := by
  induction bucket with
  | nil => simp [insert_scan]
  | cons e rest ih =>
    obtain ⟨k, v⟩ := e
    by_cases hk : k = key'
    · subst hk
      simp [insert_scan, lookup_scan, hne]
    · by_cases hk2 : k = key
      · subst hk2
        simp [insert_scan, lookup_scan, hk]
      · simp [insert_scan, lookup_scan, hk, hk2, ih]

theorem lookup_scan_append_other (key key' : K) (value : V) (hne : key' ≠ key)
    (bucket : List (K × V)) :
    lookup_scan key (bucket ++ [(key', value)]) = lookup_scan key bucket := by
  induction bucket with
  | nil => simp [lookup_scan, hne]
  | cons e rest ih =>
    obtain ⟨k, v⟩ := e
    by_cases hk : k = key
    · simp [lookup_scan, hk]
    · simp [lookup_scan, hk, ih]

theorem lookup_scan_insert_bucket_other (key key' : K) (value : V) (hne : key' ≠ key)
    (bucket : List (K × V)) :
    lookup_scan key (insert_bucket key' value bucket) = lookup_scan key bucket := by
  unfold insert_bucket
  split
  · exact lookup_scan_insert_scan_other key key' value hne bucket
  · rw [lookup_scan_append_other key key' value hne]
    exact lookup_scan_insert_scan_other key key' value hne bucket

theorem lookup_scan_remove_if_other (key key' : K) (hne : key' ≠ key)
    (bucket : List (K × V)) :
    lookup_scan key (remove_if_key key' bucket) = lookup_scan key bucket := by
  induction bucket with
  | nil => simp [remove_if_key]
  | cons e rest ih =>
    obtain ⟨k, v⟩ := e
    unfold remove_if_key at ih ⊢
    by_cases hk : k = key'
    · subst hk
      simp [List.filter_cons, lookup_scan, hne, ih]
    · by_cases hk2 : k = key
      · subst hk2
        simp [List.filter_cons, lookup_scan, hk]
      · simp [List.filter_cons, lookup_scan, hk, hk2, ih]

theorem lookup_scan_remove_if_same (key : K) (bucket : List (K × V)) :
    lookup_scan key (remove_if_key key bucket) = none := by
  induction bucket with
  | nil => simp [remove_if_key, lookup_scan]
  | cons e rest ih =>
    obtain ⟨k, v⟩ := e
    unfold remove_if_key at ih ⊢
    by_cases hk : k = key
    · simp [List.filter_cons, hk, ih]
    · simp [List.filter_cons, lookup_scan, hk, ih]

theorem lookup_k_insert_kv_same (SZ : Nat) (hasher : K → Nat) (m : HashMap K V)
    (key : K) (value : V) (hlt : hash_fn SZ hasher key < m.hash_map.length) :
    lookup_k SZ hasher (insert_kv SZ hasher m key value) key = some value := by
  unfold lookup_k insert_kv
  simp only [bucket_at_set, hlt, and_self, if_true]
  exact lookup_scan_insert_bucket_same key value _

theorem lookup_k_insert_kv_other (SZ : Nat) (hasher : K → Nat) (m : HashMap K V)
    (key key' : K) (value : V) (hne : key' ≠ key) :
    lookup_k SZ hasher (insert_kv SZ hasher m key' value) key = lookup_k SZ hasher m key := by
  unfold lookup_k insert_kv
  simp only [bucket_at_set]
  split
  · rename_i h
    rw [← h.1]
    exact lookup_scan_insert_bucket_other key key' value hne _
  · rfl

theorem lookup_k_delete_k_other (SZ : Nat) (hasher : K → Nat) (m : HashMap K V)
    (key key' : K) (hne : key' ≠ key) :
    lookup_k SZ hasher (delete_k SZ hasher m key').1 key = lookup_k SZ hasher m key := by
  unfold lookup_k delete_k
  simp only [bucket_at_set]
  split
  · rename_i h
    rw [← h.1]
    exact lookup_scan_remove_if_other key key' hne _
  · rfl

theorem lookup_k_call_other (SZ : Nat) (hasher : K → Nat) (m : HashMap K V)
    (key : K) (op : Op K V) (hne : op.key ≠ key) :
    lookup_k SZ hasher (call SZ hasher m op).1 key = lookup_k SZ hasher m key := by
  cases op with
  | insert key' value => exact lookup_k_insert_kv_other SZ hasher m key key' value hne
  | lookup key' => rfl
  | delete key' => exact lookup_k_delete_k_other SZ hasher m key key' hne

theorem lookup_k_run_other (SZ : Nat) (hasher : K → Nat) (key : K) (ops : List (Op K V)) :
    ∀ m : HashMap K V, (∀ op ∈ ops, op.key ≠ key) →
      lookup_k SZ hasher (run SZ hasher m ops) key = lookup_k SZ hasher m key := by
  induction ops with
  | nil => intro m _; rfl
  | cons op ops ih =>
    intro m h
    simp only [run]
    rw [ih _ (fun o ho => h o (List.mem_cons_of_mem _ ho))]
    exact lookup_k_call_other SZ hasher m key op (h op (List.mem_cons_self _ _))

/-- C1 (insert-then-lookup): for a bucket count `SZ > 0`, any hash function, any map with its
`SZ` buckets (reachable or not), any key and value: after `insert_kv(key, value)` followed by
any finite sequence of calls whose keys all differ from `key`, `lookup_k(key)` returns
exactly `value`. -/
theorem insert_then_lookup (SZ : Nat) (hasher : K → Nat) (m : HashMap K V)
    (key : K) (value : V) (ops : List (Op K V))
    (hSZ : 0 < SZ) (hlen : m.hash_map.length = SZ) (hops : ∀ op ∈ ops, op.key ≠ key) :
    lookup_k SZ hasher (run SZ hasher (insert_kv SZ hasher m key value) ops) key
      = some value := by
  rw [lookup_k_run_other SZ hasher key ops _ hops]
  apply lookup_k_insert_kv_same
  rw [hlen]
  exact hash_fn_lt SZ hasher key hSZ

/-- Witness of C1: three buckets, identity hash, a bucket that already holds key 4 twice;
insert (4, 9), then insert 1, delete 7, look up 1, insert 7 (1 and 7 share the bucket of 4). -/
theorem insert_then_lookup_witness :
    lookup_k 3 (fun n : Nat => n)
      (run 3 (fun n : Nat => n)
        (insert_kv 3 (fun n : Nat => n) (⟨[[], [(7, 0), (4, 1), (4, 2)], []]⟩ : HashMap Nat Nat) 4 9)
        [Op.insert 1 5, Op.delete 7, Op.lookup 1, Op.insert 7 8]) 4 = some 9 :=
  insert_then_lookup 3 (fun n : Nat => n) ⟨[[], [(7, 0), (4, 1), (4, 2)], []]⟩ 4 9
    [Op.insert 1 5, Op.delete 7, Op.lookup 1, Op.insert 7 8]
    (by decide) (by decide) (by decide)


/-! ### The invariant of reachable maps -/

theorem insert_scan_keys (key : K) (value : V) (bucket : List (K × V)) :
    (insert_scan key value bucket).1.map Prod.fst = bucket.map Prod.fst := by
  induction bucket with
  | nil => simp [insert_scan]
  | cons e rest ih =>
    obtain ⟨k, v⟩ := e
    by_cases hk : k = key
    · simp [insert_scan, hk]
    · simp [insert_scan, hk, ih]

theorem insert_bucket_keys (key : K) (value : V) (bucket : List (K × V)) :
    (insert_bucket key value bucket).map Prod.fst
      = if (insert_scan key value bucket).2 then bucket.map Prod.fst
        else bucket.map Prod.fst ++ [key] := by
  unfold insert_bucket
  split <;> simp [insert_scan_keys]

theorem bucket_ok_insert (SZ : Nat) (hasher : K → Nat) (key : K) (value : V)
    (bucket : List (K × V)) (h : bucket_ok SZ hasher (hash_fn SZ hasher key) bucket) :
    bucket_ok SZ hasher (hash_fn SZ hasher key) (insert_bucket key value bucket) := by
  obtain ⟨hplace, hnodup⟩ := h
  have hkeys := insert_bucket_keys key value bucket
  constructor
  · intro e he
    have hmem : e.1 ∈ (insert_bucket key value bucket).map Prod.fst :=
      List.mem_map_of_mem Prod.fst he
    rw [hkeys] at hmem
    have hcase : e.1 ∈ bucket.map Prod.fst ∨ e.1 = key := by
      split at hmem
      · exact Or.inl hmem
      · simpa using hmem
    rcases hcase with h1 | h1
    · obtain ⟨e', he', heq⟩ := List.mem_map.mp h1
      rw [← heq]
      exact hplace e' he'
    · rw [h1]
  · rw [hkeys]
    by_cases hf : (insert_scan key value bucket).2 = true
    · simp only [hf, if_true]
      exact hnodup
    · simp only [hf, if_false]
      have hnot : key ∉ bucket.map Prod.fst := by
        intro hin
        obtain ⟨e', he', heq⟩ := List.mem_map.mp hin
        exact hf ((insert_scan_snd key value bucket).mpr ⟨e', he', heq⟩)
      simp only [Bool.false_eq_true, if_false]
      rw [List.nodup_append]
      refine ⟨hnodup, List.nodup_singleton key, ?_⟩
      intro a ha hb
      rw [List.mem_singleton] at hb
      exact hnot (hb ▸ ha)

theorem bucket_ok_remove (SZ : Nat) (hasher : K → Nat) (i : Nat) (key : K)
    (bucket : List (K × V)) (h : bucket_ok SZ hasher i bucket) :
    bucket_ok SZ hasher i (remove_if_key key bucket) := by
  obtain ⟨hplace, hnodup⟩ := h
  constructor
  · intro e he
    exact hplace e (List.mem_of_mem_filter he)
  · exact List.Nodup.sublist (List.Sublist.map Prod.fst (List.filter_sublist bucket)) hnodup

theorem all_buckets_ok_call (SZ : Nat) (hasher : K → Nat) (m : HashMap K V) (op : Op K V)
    (h : all_buckets_ok SZ hasher m) : all_buckets_ok SZ hasher (call SZ hasher m op).1 := by
  cases op with
  | insert key value =>
    intro i
    simp only [call, insert_kv, bucket_at_set]
    split
    · rename_i hc
      rw [← hc.1]
      exact bucket_ok_insert SZ hasher key value _ (h _)
    · exact h i
  | lookup key => exact h
  | delete key =>
    intro i
    simp only [call, delete_k, bucket_at_set]
    split
    · rename_i hc
      rw [← hc.1]
      exact bucket_ok_remove SZ hasher _ key _ (h _)
    · exact h i

theorem length_call (SZ : Nat) (hasher : K → Nat) (m : HashMap K V) (op : Op K V) :
    (call SZ hasher m op).1.hash_map.length = m.hash_map.length := by
  cases op <;> simp [call, insert_kv, delete_k]

theorem run_preserves (SZ : Nat) (hasher : K → Nat) (ops : List (Op K V)) :
    ∀ m : HashMap K V, all_buckets_ok SZ hasher m →
      all_buckets_ok SZ hasher (run SZ hasher m ops)
        ∧ (run SZ hasher m ops).hash_map.length = m.hash_map.length := by
  induction ops with
  | nil => intro m h; exact ⟨h, rfl⟩
  | cons op ops ih =>
    intro m h
    simp only [run]
    obtain ⟨h1, h2⟩ := ih _ (all_buckets_ok_call SZ hasher m op h)
    exact ⟨h1, h2.trans (length_call SZ hasher m op)⟩

theorem reachable_ok (SZ : Nat) (hasher : K → Nat) (m : HashMap K V)
    (h : Reachable SZ hasher m) :
    all_buckets_ok SZ hasher m ∧ m.hash_map.length = SZ := by
  obtain ⟨ops, rfl⟩ := h
  obtain ⟨h1, h2⟩ := run_preserves SZ hasher ops (new K V SZ) (all_buckets_ok_new SZ hasher)
  refine ⟨h1, ?_⟩
  rw [h2]
  simp [new]


/-! ### Counting the entries of a key -/

theorem count_in_bucket_eq_zero (key : K) (bucket : List (K × V))
    (h : ∀ e ∈ bucket, e.1 ≠ key) : count_in_bucket key bucket = 0 := by
  unfold count_in_bucket
  rw [List.countP_eq_zero]
  intro e he
  simpa using h e he

theorem count_in_bucket_pos (key : K) (bucket : List (K × V))
    (h : ∃ e ∈ bucket, e.1 = key) : 0 < count_in_bucket key bucket := by
  unfold count_in_bucket
  rw [List.countP_pos_iff]
  obtain ⟨e, he, hk⟩ := h
  exact ⟨e, he, by simpa using hk⟩

theorem count_in_bucket_le_one (key : K) (bucket : List (K × V))
    (h : (bucket.map Prod.fst).Nodup) : count_in_bucket key bucket ≤ 1 := by
  induction bucket with
  | nil => simp [count_in_bucket]
  | cons e rest ih =>
    rw [List.map_cons, List.nodup_cons] at h
    obtain ⟨hnot, hrest⟩ := h
    have ih2 := ih hrest
    unfold count_in_bucket at ih2 ⊢
    by_cases hk : e.1 = key
    · have hz : count_in_bucket key rest = 0 := by
        apply count_in_bucket_eq_zero
        intro e' he' heq
        exact hnot (List.mem_map.mpr ⟨e', he', heq.trans hk.symm⟩)
      unfold count_in_bucket at hz
      simp [List.countP_cons, hk, hz]
    · simp [List.countP_cons, hk, ih2]

theorem lookup_scan_isSome (key : K) (bucket : List (K × V)) :
    (lookup_scan key bucket).isSome = true ↔ ∃ e ∈ bucket, e.1 = key := by
  induction bucket with
  | nil => simp [lookup_scan]
  | cons e rest ih =>
    obtain ⟨k, v⟩ := e
    by_cases hk : k = key
    · simp [lookup_scan, hk]
    · simp [lookup_scan, hk, ih]

/-- Sum of the counts over a list of buckets whose `i`-th bucket holds only keys hashing to
`off + i`: only the bucket of the key contributes. -/
theorem sum_count_placed (SZ : Nat) (hasher : K → Nat) (key : K) (bs : List (List (K × V))) :
    ∀ off : Nat, (∀ i : Nat, ∀ e ∈ bs.getD i [], hash_fn SZ hasher e.1 = off + i) →
      (bs.map (count_in_bucket key)).sum
        = if off ≤ hash_fn SZ hasher key
          then count_in_bucket key (bs.getD (hash_fn SZ hasher key - off) []) else 0 := by
  induction bs with
  | nil => intro off _; simp [count_in_bucket]
  | cons b bs ih =>
    intro off h
    have hb : ∀ e ∈ b, hash_fn SZ hasher e.1 = off := by
      intro e he
      have := h 0 e (by simpa using he)
      simpa using this
    have hbs : ∀ i : Nat, ∀ e ∈ bs.getD i [], hash_fn SZ hasher e.1 = (off + 1) + i := by
      intro i e he
      have := h (i + 1) e (by simpa using he)
      omega
    rw [List.map_cons, List.sum_cons, ih (off + 1) hbs]
    by_cases h1 : hash_fn SZ hasher key = off
    · have h2 : ¬ (off + 1 ≤ hash_fn SZ hasher key) := by omega
      simp [h1]
    · have hz : count_in_bucket key b = 0 := by
        apply count_in_bucket_eq_zero
        intro e he heq
        apply h1
        rw [← heq]
        exact hb e he
      rw [hz]
      by_cases h3 : off + 1 ≤ hash_fn SZ hasher key
      · have h4 : off ≤ hash_fn SZ hasher key := by omega
        have h5 : hash_fn SZ hasher key - off = (hash_fn SZ hasher key - (off + 1)) + 1 := by
          omega
        rw [if_pos h3, if_pos h4, h5]
        simp
      · have h4 : ¬ (off ≤ hash_fn SZ hasher key) := by omega
        rw [if_neg h3, if_neg h4]

theorem count_key_eq_bucket (SZ : Nat) (hasher : K → Nat) (key : K) (m : HashMap K V)
    (h : all_buckets_ok SZ hasher m) :
    count_key key m = count_in_bucket key (m.bucket_at (hash_fn SZ hasher key)) := by
  unfold count_key
  rw [sum_count_placed SZ hasher key m.hash_map 0 (fun i e he => by
    have := (h i).1 e he
    simpa using this)]
  simp [bucket_at]

theorem count_key_le_one_of_ok (SZ : Nat) (hasher : K → Nat) (key : K) (m : HashMap K V)
    (h : all_buckets_ok SZ hasher m) : count_key key m ≤ 1 := by
  rw [count_key_eq_bucket SZ hasher key m h]
  exact count_in_bucket_le_one key _ (h _).2

/-- C2 (update semantics): for a bucket count `SZ > 0` and every map reachable from the newly
constructed map, after `insert_kv(key, v1)` then `insert_kv(key, v2)`, `lookup_k(key)` returns
`v2` and the number of entries with key `key`, counted over all buckets, is exactly one. -/
theorem update_semantics (SZ : Nat) (hasher : K → Nat) (m : HashMap K V)
    (key : K) (v1 v2 : V) (hSZ : 0 < SZ) (hreach : Reachable SZ hasher m) :
    lookup_k SZ hasher (insert_kv SZ hasher (insert_kv SZ hasher m key v1) key v2) key = some v2
      ∧ count_key key (insert_kv SZ hasher (insert_kv SZ hasher m key v1) key v2) = 1 := by
  obtain ⟨hok, hlen⟩ := reachable_ok SZ hasher m hreach
  have hok1 := all_buckets_ok_call SZ hasher m (Op.insert key v1) hok
  have hok2 := all_buckets_ok_call SZ hasher _ (Op.insert key v2) hok1
  simp only [call] at hok1 hok2
  have hlook : lookup_k SZ hasher
      (insert_kv SZ hasher (insert_kv SZ hasher m key v1) key v2) key = some v2 := by
    apply lookup_k_insert_kv_same
    simp only [insert_kv, List.length_set, hlen]
    exact hash_fn_lt SZ hasher key hSZ
  refine ⟨hlook, ?_⟩
  have hle := count_key_le_one_of_ok SZ hasher key _ hok2
  have hpos : 0 < count_key key
      (insert_kv SZ hasher (insert_kv SZ hasher m key v1) key v2) := by
    rw [count_key_eq_bucket SZ hasher key _ hok2]
    apply count_in_bucket_pos
    apply (lookup_scan_isSome key _).mp
    unfold lookup_k at hlook
    rw [hlook]
    rfl
  omega

/-- Witness of C2: ten buckets, identity hash, the map reached by inserting 3, 13, 3 again and
deleting 13; then key 23 is inserted twice. -/
theorem update_semantics_witness :
    lookup_k 10 (fun n : Nat => n)
        (insert_kv 10 (fun n : Nat => n) (insert_kv 10 (fun n : Nat => n)
          (run 10 (fun n : Nat => n) (new Nat Nat 10)
            [Op.insert 3 4, Op.insert 13 10, Op.insert 3 5, Op.delete 13]) 23 1) 23 2) 23
        = some 2
      ∧ count_key 23
        (insert_kv 10 (fun n : Nat => n) (insert_kv 10 (fun n : Nat => n)
          (run 10 (fun n : Nat => n) (new Nat Nat 10)
            [Op.insert 3 4, Op.insert 13 10, Op.insert 3 5, Op.delete 13]) 23 1) 23 2) = 1 :=
  update_semantics 10 (fun n : Nat => n)
    (run 10 (fun n : Nat => n) (new Nat Nat 10)
      [Op.insert 3 4, Op.insert 13 10, Op.insert 3 5, Op.delete 13]) 23 1 2
    (by decide) ⟨[Op.insert 3 4, Op.insert 13 10, Op.insert 3 5, Op.delete 13], rfl⟩

/-- C6 (uniqueness): starting from a newly constructed map and applying any finite sequence of
`insert_kv`, `lookup_k` and `delete_k` calls, for every key the number of stored entries with
that key, summed over all buckets, is at most one. -/
theorem uniqueness (SZ : Nat) (hasher : K → Nat) (ops : List (Op K V)) (key : K) :
    count_key key (run SZ hasher (new K V SZ) ops) ≤ 1 :=
  count_key_le_one_of_ok SZ hasher key _
    (run_preserves SZ hasher ops (new K V SZ) (all_buckets_ok_new SZ hasher)).1


/-! ### Deleting and absent keys -/

theorem remove_if_key_length (key : K) (bucket : List (K × V)) :
    (remove_if_key key bucket).length ≤ bucket.length :=
  List.length_filter_le _ bucket

theorem remove_if_key_eq_self (key : K) (bucket : List (K × V))
    (h : ∀ e ∈ bucket, e.1 ≠ key) : remove_if_key key bucket = bucket := by
  unfold remove_if_key
  rw [List.filter_eq_self]
  intro e he
  simpa using h e he

theorem remove_if_key_length_eq (key : K) (bucket : List (K × V)) :
    (remove_if_key key bucket).length = bucket.length ↔ ∀ e ∈ bucket, e.1 ≠ key := by
  induction bucket with
  | nil => simp [remove_if_key]
  | cons e rest ih =>
    have hle := remove_if_key_length key rest
    unfold remove_if_key at ih hle ⊢
    by_cases hk : e.1 = key
    · simp only [List.filter_cons, hk, decide_True, Bool.not_true, Bool.false_eq_true, if_false,
        List.length_cons, List.mem_cons, ne_eq, forall_eq_or_imp, not_true_eq_false, false_and,
        iff_false]
      omega
    · simp only [List.filter_cons, hk, decide_False, Bool.not_false, if_true,
        List.length_cons, List.mem_cons, ne_eq, forall_eq_or_imp, not_false_eq_true, true_and,
        Nat.add_right_cancel_iff]
      exact ih

theorem delete_k_snd (SZ : Nat) (hasher : K → Nat) (m : HashMap K V) (key : K) :
    (delete_k SZ hasher m key).2 = true
      ↔ ∃ e ∈ m.bucket_at (hash_fn SZ hasher key), e.1 = key := by
  have h := remove_if_key_length_eq key (m.bucket_at (hash_fn SZ hasher key))
  simp only [delete_k, bne_iff_ne, ne_eq]
  rw [h]
  simp

theorem delete_k_absent (SZ : Nat) (hasher : K → Nat) (m : HashMap K V) (key : K)
    (h : ∀ e ∈ m.bucket_at (hash_fn SZ hasher key), e.1 ≠ key) :
    delete_k SZ hasher m key = (m, false) := by
  have hb : (delete_k SZ hasher m key).2 = false := by
    cases hd : (delete_k SZ hasher m key).2 with
    | false => rfl
    | true =>
      obtain ⟨e, he, hk⟩ := (delete_k_snd SZ hasher m key).mp hd
      exact absurd hk (h e he)
  have hm : (delete_k SZ hasher m key).1 = m := by
    simp only [delete_k]
    rw [remove_if_key_eq_self key _ h]
    exact set_bucket_at_self m _
  exact Prod.ext hm hb

theorem bucket_at_absent_of_lookup_none (SZ : Nat) (hasher : K → Nat) (m : HashMap K V)
    (key : K) (h : lookup_k SZ hasher m key = none) :
    ∀ e ∈ m.bucket_at (hash_fn SZ hasher key), e.1 ≠ key := by
  intro e he hk
  have := (lookup_scan_isSome key (m.bucket_at (hash_fn SZ hasher key))).mpr ⟨e, he, hk⟩
  unfold lookup_k at h
  rw [h] at this
  exact absurd this (by simp)

theorem lookup_k_delete_k_same (SZ : Nat) (hasher : K → Nat) (m : HashMap K V) (key : K) :
    lookup_k SZ hasher (delete_k SZ hasher m key).1 key = none := by
  unfold lookup_k delete_k
  simp only [bucket_at_set]
  split
  · exact lookup_scan_remove_if_same key _
  · rename_i hc
    have hle : m.hash_map.length ≤ hash_fn SZ hasher key := by
      apply Nat.le_of_not_lt
      intro hlt
      exact hc ⟨trivial, hlt⟩
    rw [bucket_at_of_le m _ hle]
    rfl

/-- C3 (delete-then-lookup): for every map and every key, `delete_k(key)` followed
immediately by `lookup_k(key)` returns the empty result, whether or not the key was present
before the delete. -/
theorem delete_then_lookup (SZ : Nat) (hasher : K → Nat) (m : HashMap K V) (key : K) :
    lookup_k SZ hasher (call SZ hasher m (Op.delete key)).1 key = none :=
  lookup_k_delete_k_same SZ hasher m key

/-- C4 (result of delete): for every map and every key, `delete_k(key)` returns `true` if and
only if `lookup_k(key)` on the map just before the delete returns a present value, which is
the case if and only if an entry with an equal key is in the bucket of the key. -/
theorem delete_returns_found (SZ : Nat) (hasher : K → Nat) (m : HashMap K V) (key : K) :
    ((delete_k SZ hasher m key).2 = true ↔ (lookup_k SZ hasher m key).isSome = true)
      ∧ ((lookup_k SZ hasher m key).isSome = true
          ↔ ∃ e ∈ m.bucket_at (hash_fn SZ hasher key), e.1 = key) :=
  ⟨(delete_k_snd SZ hasher m key).trans (lookup_scan_isSome key _).symm,
    lookup_scan_isSome key _⟩

/-- C5 (idempotent delete): for every map and every key, after `delete_k(key)` and then any
finite sequence of calls none of which is an insert of `key` (lookups of any key, deletes of any key and
inserts of other keys are allowed), a second `delete_k(key)` returns
`false` and leaves the map unchanged. -/
theorem delete_twice (SZ : Nat) (hasher : K → Nat) (m : HashMap K V) (key : K)
    (ops : List (Op K V)) (hops : ∀ op ∈ ops, op.inserts key = false) :
    delete_k SZ hasher (run SZ hasher (delete_k SZ hasher m key).1 ops) key
      = (run SZ hasher (delete_k SZ hasher m key).1 ops, false) := by
  apply delete_k_absent
  apply bucket_at_absent_of_lookup_none
  have hgen : ∀ (ops : List (Op K V)) (m0 : HashMap K V),
      (∀ op ∈ ops, op.inserts key = false) →
      lookup_k SZ hasher m0 key = none →
      lookup_k SZ hasher (run SZ hasher m0 ops) key = none := by
    intro ops
    induction ops with
    | nil => intro m0 _ h0; exact h0
    | cons op ops ih =>
      intro m0 h h0
      simp only [run]
      apply ih _ (fun o ho => h o (List.mem_cons_of_mem _ ho))
      have hop := h op (List.mem_cons_self _ _)
      cases op with
      | insert key' value =>
        have hne : key' ≠ key := by
          simpa [Op.inserts] using hop
        rw [lookup_k_call_other SZ hasher m0 key (Op.insert key' value) hne]
        exact h0
      | lookup key' => exact h0
      | delete key' =>
        by_cases heq : key' = key
        · rw [heq]
          exact lookup_k_delete_k_same SZ hasher m0 key
        · rw [lookup_k_call_other SZ hasher m0 key (Op.delete key') heq]
          exact h0
  exact hgen ops _ hops (lookup_k_delete_k_same SZ hasher m key)

/-- Witness of C5: ten buckets, identity hash; key 3 is deleted from a map that holds it,
then 13 is inserted in the same bucket, 3 is looked up, 13 is deleted, 3 is deleted again. -/
theorem delete_twice_witness :
    delete_k 10 (fun n : Nat => n)
        (run 10 (fun n : Nat => n)
          (delete_k 10 (fun n : Nat => n)
            (run 10 (fun n : Nat => n) (new Nat Nat 10) [Op.insert 3 4, Op.insert 23 1]) 3).1
          [Op.insert 13 7, Op.lookup 3, Op.delete 13, Op.delete 3]) 3
      = (run 10 (fun n : Nat => n)
          (delete_k 10 (fun n : Nat => n)
            (run 10 (fun n : Nat => n) (new Nat Nat 10) [Op.insert 3 4, Op.insert 23 1]) 3).1
          [Op.insert 13 7, Op.lookup 3, Op.delete 13, Op.delete 3], false) :=
  delete_twice 10 (fun n : Nat => n)
    (run 10 (fun n : Nat => n) (new Nat Nat 10) [Op.insert 3 4, Op.insert 23 1]) 3
    [Op.insert 13 7, Op.lookup 3, Op.delete 13, Op.delete 3] (by decide)

/-- C7 (absent keys): for every map in which no entry has a key equal to `key`, `lookup_k(key)`
returns the empty result and `delete_k(key)` returns `false`, and both leave the map exactly
as it was; in particular this holds of the newly constructed map for every key. -/
theorem absent_key_results (SZ : Nat) (hasher : K → Nat) (key : K) :
    (∀ m : HashMap K V, key_absent key m →
        call SZ hasher m (Op.lookup key) = (m, Ret.value none)
          ∧ call SZ hasher m (Op.delete key) = (m, Ret.flag false))
      ∧ call SZ hasher (new K V SZ) (Op.lookup key) = (new K V SZ, Ret.value none)
      ∧ call SZ hasher (new K V SZ) (Op.delete key) = (new K V SZ, Ret.flag false) := by
  have hmain : ∀ m : HashMap K V, key_absent key m →
      call SZ hasher m (Op.lookup key) = (m, Ret.value none)
        ∧ call SZ hasher m (Op.delete key) = (m, Ret.flag false) := by
    intro m habs
    have hb : ∀ e ∈ m.bucket_at (hash_fn SZ hasher key), e.1 ≠ key := by
      by_cases hlt : hash_fn SZ hasher key < m.hash_map.length
      · exact habs _ (bucket_at_mem m _ hlt)
      · rw [bucket_at_of_le m _ (Nat.le_of_not_lt hlt)]
        simp
    have hl : lookup_k SZ hasher m key = none := by
      cases hlk : lookup_k SZ hasher m key with
      | none => rfl
      | some v =>
        have hs : (lookup_scan key (m.bucket_at (hash_fn SZ hasher key))).isSome = true := by
          unfold lookup_k at hlk
          rw [hlk]
          rfl
        obtain ⟨e, he, hk⟩ := (lookup_scan_isSome key _).mp hs
        exact absurd hk (hb e he)
    have hd := delete_k_absent SZ hasher m key hb
    constructor
    · simp only [call, hl]
    · simp only [call, hd]
  have hnew : key_absent key (new K V SZ) := by
    intro bucket hbucket e he
    have : bucket = [] := by
      unfold new at hbucket
      exact (List.mem_replicate.mp hbucket).2
    rw [this] at he
    simp at he
  exact ⟨hmain, hmain _ hnew⟩

/-- Witness of C7: three buckets, identity hash, a map holding keys 3 and 4 only; key 7, which
shares the bucket of 4, is absent. -/
theorem absent_key_results_witness :
    call 3 (fun n : Nat => n) (⟨[[(3, 0)], [(4, 1)], []]⟩ : HashMap Nat Nat) (Op.lookup 7)
        = (⟨[[(3, 0)], [(4, 1)], []]⟩, Ret.value none)
      ∧ call 3 (fun n : Nat => n) (⟨[[(3, 0)], [(4, 1)], []]⟩ : HashMap Nat Nat) (Op.delete 7)
        = (⟨[[(3, 0)], [(4, 1)], []]⟩, Ret.flag false) :=
  (absent_key_results 3 (fun n : Nat => n) 7).1 ⟨[[(3, 0)], [(4, 1)], []]⟩
    (by unfold key_absent; decide)

end HashMap

/-! ## Theorems: the lock -/

namespace RWLock

theorem incr_zero : incr 0 = 1 := by
  simp [incr, SIZE_T_MOD]

theorem decr_one : decr 1 = 0 := by
  simp [decr, SIZE_T_MOD]

theorem incr_ne_self (x : Nat) : incr x ≠ x := by
  simp only [incr, SIZE_T_MOD, Nat.reducePow]
  omega

theorem decr_ne_incr (x : Nat) : decr x ≠ incr x := by
  simp only [incr, decr, SIZE_T_MOD, Nat.reducePow, Nat.reduceSub]
  omega

theorem decr_incr (x : Nat) : decr (incr x) = x % SIZE_T_MOD := by
  simp only [incr, decr, SIZE_T_MOD, Nat.reducePow, Nat.reduceSub]
  omega

theorem reader_blocked_eq_false (s : RWLock) :
    reader_blocked s = false ↔ s.writers_ = 0 ∧ s.waiting_writers_ = 0 := by
  simp [reader_blocked]

theorem writer_blocked_eq_false (s : RWLock) :
    writer_blocked s = false ↔ s.readers_ = 0 ∧ s.writers_ = 0 := by
  simp [writer_blocked]

/-- One step keeps: at most one active writer, and no active reader beside an active writer. -/
theorem step_exclusion (s t : RWLock) (e : Event) (hstep : step s e = some t)
    (h : s.writers_ ≤ 1 ∧ (s.writers_ = 1 → s.readers_ = 0)) :
    t.writers_ ≤ 1 ∧ (t.writers_ = 1 → t.readers_ = 0) := by
  obtain ⟨h1, h2⟩ := h
  cases e with
  | reader_enter =>
    simp only [step, reader_lock_enter, Option.some.injEq] at hstep
    by_cases hb : reader_blocked s = true
    · rw [if_pos hb] at hstep
      subst hstep
      exact ⟨h1, h2⟩
    · rw [if_neg hb] at hstep
      subst hstep
      have hw := ((reader_blocked_eq_false s).mp (by simpa using hb)).1
      refine ⟨h1, fun hone => ?_⟩
      have hone2 : s.writers_ = 1 := hone
      omega
  | reader_resume =>
    simp only [step, reader_lock_resume] at hstep
    split at hstep
    · simp only [Option.some.injEq] at hstep
      by_cases hb : reader_blocked s = true
      · rw [if_pos hb] at hstep
        subst hstep
        exact ⟨h1, h2⟩
      · rw [if_neg hb] at hstep
        subst hstep
        have hw := ((reader_blocked_eq_false s).mp (by simpa using hb)).1
        refine ⟨h1, fun hone => ?_⟩
        have hone2 : s.writers_ = 1 := hone
        omega
    · exact absurd hstep (by simp)
  | reader_unlock =>
    simp only [step, reader_unlock] at hstep
    split at hstep
    · rename_i hpos
      simp only [Option.some.injEq] at hstep
      subst hstep
      refine ⟨h1, fun hone => ?_⟩
      have hzero : s.readers_ = 0 := h2 hone
      omega
    · exact absurd hstep (by simp)
  | writer_enter =>
    simp only [step, writer_lock_enter, Option.some.injEq] at hstep
    by_cases hb : writer_blocked s = true
    · rw [if_pos hb] at hstep
      subst hstep
      exact ⟨h1, h2⟩
    · rw [if_neg hb] at hstep
      subst hstep
      obtain ⟨hr, hw⟩ := (writer_blocked_eq_false s).mp (by simpa using hb)
      have hone : incr s.writers_ = 1 := by rw [hw, incr_zero]
      exact ⟨Nat.le_of_eq hone, fun _ => hr⟩
  | writer_resume =>
    simp only [step, writer_lock_resume] at hstep
    split at hstep
    · simp only [Option.some.injEq] at hstep
      by_cases hb : writer_blocked s = true
      · rw [if_pos hb] at hstep
        subst hstep
        exact ⟨h1, h2⟩
      · rw [if_neg hb] at hstep
        subst hstep
        obtain ⟨hr, hw⟩ := (writer_blocked_eq_false s).mp (by simpa using hb)
        have hone : incr s.writers_ = 1 := by rw [hw, incr_zero]
        exact ⟨Nat.le_of_eq hone, fun _ => hr⟩
    · exact absurd hstep (by simp)
  | write_unlock =>
    simp only [step, write_unlock] at hstep
    split at hstep
    · rename_i hpos
      simp only [Option.some.injEq] at hstep
      subst hstep
      have hw : s.writers_ = 1 := by omega
      have hzero : decr s.writers_ = 0 := by rw [hw, decr_one]
      refine ⟨Nat.le_of_lt (Nat.lt_of_le_of_lt (Nat.le_of_eq hzero) Nat.zero_lt_one),
        fun hone => ?_⟩
      have hone2 : decr s.writers_ = 1 := hone
      omega
    · exact absurd hstep (by simp)

theorem exec_exclusion (es : List Event) :
    ∀ s t : RWLock, exec s es = some t →
      (s.writers_ ≤ 1 ∧ (s.writers_ = 1 → s.readers_ = 0)) →
      (t.writers_ ≤ 1 ∧ (t.writers_ = 1 → t.readers_ = 0)) := by
  induction es with
  | nil =>
    intro s t hex h
    simp only [exec, Option.some.injEq] at hex
    subst hex
    exact h
  | cons e es ih =>
    intro s t hex h
    simp only [exec] at hex
    cases hs : step s e with
    | none => rw [hs] at hex; exact absurd hex (by simp)
    | some u =>
      rw [hs] at hex
      exact ih u t hex (step_exclusion s u e hs h)

/-- C8 (mutual exclusion): in every state reachable from the initial all-zero state by the
atomic steps of the lock (admissions and properly paired releases), `writers_` is 0 or 1, and
`writers_ = 1` implies `readers_ = 0`. -/
theorem mutual_exclusion (s : RWLock) (h : Reachable s) :
    (s.writers_ = 0 ∨ s.writers_ = 1) ∧ (s.writers_ = 1 → s.readers_ = 0) := by
  obtain ⟨es, hes⟩ := h
  have hinv := exec_exclusion es init s hes ⟨by simp [init], by simp [init]⟩
  exact ⟨by omega, hinv.2⟩

/-- Witness of C8: a reader enters, a writer arrives and waits, a second reader arrives and
waits, the reader leaves, the writer resumes and is admitted. -/
theorem mutual_exclusion_witness :
    ((⟨0, 1, 1, 0⟩ : RWLock).writers_ = 0 ∨ (⟨0, 1, 1, 0⟩ : RWLock).writers_ = 1)
      ∧ ((⟨0, 1, 1, 0⟩ : RWLock).writers_ = 1 → (⟨0, 1, 1, 0⟩ : RWLock).readers_ = 0) :=
  mutual_exclusion ⟨0, 1, 1, 0⟩
    ⟨[Event.reader_enter, Event.writer_enter, Event.reader_enter, Event.reader_unlock,
      Event.writer_resume], by decide⟩

theorem step_readers (s t : RWLock) (e : Event) (hstep : step s e = some t) :
    (t.readers_ = s.readers_ ∨ t.readers_ = decr s.readers_)
      ∨ (t.readers_ = incr s.readers_ ∧ reader_blocked s = false) := by
  cases e with
  | reader_enter =>
    simp only [step, reader_lock_enter, Option.some.injEq] at hstep
    by_cases hb : reader_blocked s = true
    · rw [if_pos hb] at hstep
      subst hstep
      exact Or.inl (Or.inl rfl)
    · rw [if_neg hb] at hstep
      subst hstep
      exact Or.inr ⟨rfl, by simpa using hb⟩
  | reader_resume =>
    simp only [step, reader_lock_resume] at hstep
    split at hstep
    · simp only [Option.some.injEq] at hstep
      by_cases hb : reader_blocked s = true
      · rw [if_pos hb] at hstep
        subst hstep
        exact Or.inl (Or.inl rfl)
      · rw [if_neg hb] at hstep
        subst hstep
        exact Or.inr ⟨rfl, by simpa using hb⟩
    · exact absurd hstep (by simp)
  | reader_unlock =>
    simp only [step, reader_unlock] at hstep
    split at hstep
    · simp only [Option.some.injEq] at hstep
      subst hstep
      exact Or.inl (Or.inr rfl)
    · exact absurd hstep (by simp)
  | writer_enter =>
    simp only [step, writer_lock_enter, Option.some.injEq] at hstep
    split at hstep <;> (subst hstep; exact Or.inl (Or.inl rfl))
  | writer_resume =>
    simp only [step, writer_lock_resume] at hstep
    split at hstep
    · simp only [Option.some.injEq] at hstep
      split at hstep <;> (subst hstep; exact Or.inl (Or.inl rfl))
    · exact absurd hstep (by simp)
  | write_unlock =>
    simp only [step, write_unlock] at hstep
    split at hstep
    · simp only [Option.some.injEq] at hstep
      subst hstep
      exact Or.inl (Or.inl rfl)
    · exact absurd hstep (by simp)

theorem step_writers (s t : RWLock) (e : Event) (hstep : step s e = some t) :
    (t.writers_ = s.writers_ ∨ t.writers_ = decr s.writers_)
      ∨ (t.writers_ = incr s.writers_ ∧ writer_blocked s = false) := by
  cases e with
  | writer_enter =>
    simp only [step, writer_lock_enter, Option.some.injEq] at hstep
    by_cases hb : writer_blocked s = true
    · rw [if_pos hb] at hstep
      subst hstep
      exact Or.inl (Or.inl rfl)
    · rw [if_neg hb] at hstep
      subst hstep
      exact Or.inr ⟨rfl, by simpa using hb⟩
  | writer_resume =>
    simp only [step, writer_lock_resume] at hstep
    split at hstep
    · simp only [Option.some.injEq] at hstep
      by_cases hb : writer_blocked s = true
      · rw [if_pos hb] at hstep
        subst hstep
        exact Or.inl (Or.inl rfl)
      · rw [if_neg hb] at hstep
        subst hstep
        exact Or.inr ⟨rfl, by simpa using hb⟩
    · exact absurd hstep (by simp)
  | write_unlock =>
    simp only [step, write_unlock] at hstep
    split at hstep
    · simp only [Option.some.injEq] at hstep
      subst hstep
      exact Or.inl (Or.inr rfl)
    · exact absurd hstep (by simp)
  | reader_enter =>
    simp only [step, reader_lock_enter, Option.some.injEq] at hstep
    split at hstep <;> (subst hstep; exact Or.inl (Or.inl rfl))
  | reader_resume =>
    simp only [step, reader_lock_resume] at hstep
    split at hstep
    · simp only [Option.some.injEq] at hstep
      split at hstep <;> (subst hstep; exact Or.inl (Or.inl rfl))
    · exact absurd hstep (by simp)
  | reader_unlock =>
    simp only [step, reader_unlock] at hstep
    split at hstep
    · simp only [Option.some.injEq] at hstep
      subst hstep
      exact Or.inl (Or.inl rfl)
    · exact absurd hstep (by simp)

/-- C9 (writer preference on read admission): for every state of the lock,
(1) a step that increments `readers_` starts from a state with `writers_ = 0` and
`waiting_writers_ = 0`; (2) so does every `reader_lock` that returns, whether it returns
at once or after a wait; (3) from such a state a requesting reader proceeds immediately:
`readers_` is incremented and nothing else changes, in particular `waiting_readers_`;
(4) from any other state the requesting reader is not admitted: it is counted in
`waiting_readers_` and `readers_` is unchanged, and a reader woken in such a state goes back
to waiting with no change at all. -/
theorem read_admission (s : RWLock) :
    (∀ (e : Event) (t : RWLock), step s e = some t → t.readers_ = incr s.readers_ →
        s.writers_ = 0 ∧ s.waiting_writers_ = 0)
      ∧ ((reader_lock_enter s).2 = true ∨ (reader_lock_resume s).2 = true →
        s.writers_ = 0 ∧ s.waiting_writers_ = 0)
      ∧ (s.writers_ = 0 ∧ s.waiting_writers_ = 0 →
        reader_lock_enter s = ({ s with readers_ := incr s.readers_ }, true))
      ∧ (¬ (s.writers_ = 0 ∧ s.waiting_writers_ = 0) →
        reader_lock_enter s = ({ s with waiting_readers_ := incr s.waiting_readers_ }, false)
          ∧ reader_lock_resume s = (s, false)) := by
  refine ⟨?_, ?_, ?_, ?_⟩
  · intro e t hstep hinc
    rcases step_readers s t e hstep with (h | h) | h
    · exact absurd (h.symm.trans hinc) (Ne.symm (incr_ne_self _))
    · exact absurd (h.symm.trans hinc) (decr_ne_incr _)
    · exact (reader_blocked_eq_false s).mp h.2
  · intro h
    apply (reader_blocked_eq_false s).mp
    cases hb : reader_blocked s with
    | false => rfl
    | true => simp [reader_lock_enter, reader_lock_resume, hb] at h
  · intro h
    have hb := (reader_blocked_eq_false s).mpr h
    simp [reader_lock_enter, hb]
  · intro h
    have hb : reader_blocked s = true := by
      cases hb : reader_blocked s with
      | true => rfl
      | false => exact absurd ((reader_blocked_eq_false s).mp hb) h
    simp [reader_lock_enter, reader_lock_resume, hb]

/-- Witness of C9: with one writer active and one writer waiting, an arriving reader is
counted as waiting and a woken reader waits again; with no writer active or waiting and two
readers active, an arriving reader becomes the third active reader. -/
theorem read_admission_witness :
    (reader_lock_enter ⟨0, 1, 0, 1⟩ = (⟨0, 1, 1, 1⟩, false)
        ∧ reader_lock_resume ⟨0, 1, 0, 1⟩ = (⟨0, 1, 0, 1⟩, false))
      ∧ reader_lock_enter ⟨2, 0, 1, 0⟩ = (⟨3, 0, 1, 0⟩, true) :=
  ⟨(read_admission ⟨0, 1, 0, 1⟩).2.2.2 (by decide),
    (read_admission ⟨2, 0, 1, 0⟩).2.2.1 (by decide)⟩

/-- C10 (write admission): for every state of the lock,
(1) a step that increments `writers_` starts from a state with `readers_ = 0` and
`writers_ = 0` and sets `writers_` to exactly 1; (2) every `writer_lock` that returns, at once
or after a wait, starts from such a state; (3) from such a state a requesting writer proceeds
immediately: `writers_` becomes 1 and nothing else changes, in particular `waiting_writers_`;
(4) from any other state the requesting writer increments `waiting_writers_` once and waits,
and a writer woken in such a state waits again with no change; (5) a waiting writer woken in a
state with `readers_ = 0` and `writers_ = 0` decrements `waiting_writers_` once and sets
`writers_` to 1; (6) the increment of (4) followed by the decrement of (5) gives back the
original value of `waiting_writers_`. -/
theorem write_admission (s : RWLock) :
    (∀ (e : Event) (t : RWLock), step s e = some t → t.writers_ = incr s.writers_ →
        s.readers_ = 0 ∧ s.writers_ = 0 ∧ t.writers_ = 1)
      ∧ ((writer_lock_enter s).2 = true ∨ (writer_lock_resume s).2 = true →
        s.readers_ = 0 ∧ s.writers_ = 0)
      ∧ (s.readers_ = 0 ∧ s.writers_ = 0 →
        writer_lock_enter s = ({ s with writers_ := 1 }, true))
      ∧ (¬ (s.readers_ = 0 ∧ s.writers_ = 0) →
        writer_lock_enter s = ({ s with waiting_writers_ := incr s.waiting_writers_ }, false)
          ∧ writer_lock_resume s = (s, false))
      ∧ (s.readers_ = 0 ∧ s.writers_ = 0 →
        writer_lock_resume s
          = ({ s with waiting_writers_ := decr s.waiting_writers_, writers_ := 1 }, true))
      ∧ (∀ u : RWLock, ¬ (s.readers_ = 0 ∧ s.writers_ = 0) → s.waiting_writers_ < SIZE_T_MOD →
          u.readers_ = 0 ∧ u.writers_ = 0 →
          u.waiting_writers_ = (writer_lock_enter s).1.waiting_writers_ →
          (writer_lock_resume u).1.waiting_writers_ = s.waiting_writers_) := by
  refine ⟨?_, ?_, ?_, ?_, ?_, ?_⟩
  · intro e t hstep hinc
    rcases step_writers s t e hstep with (h | h) | h
    · exact absurd (h.symm.trans hinc) (Ne.symm (incr_ne_self _))
    · exact absurd (h.symm.trans hinc) (decr_ne_incr _)
    · obtain ⟨hr, hw⟩ := (writer_blocked_eq_false s).mp h.2
      refine ⟨hr, hw, ?_⟩
      rw [hinc, hw, incr_zero]
  · intro h
    apply (writer_blocked_eq_false s).mp
    cases hb : writer_blocked s with
    | false => rfl
    | true => simp [writer_lock_enter, writer_lock_resume, hb] at h
  · intro h
    have hb := (writer_blocked_eq_false s).mpr h
    simp [writer_lock_enter, hb, h.2, incr_zero]
  · intro h
    have hb : writer_blocked s = true := by
      cases hb : writer_blocked s with
      | true => rfl
      | false => exact absurd ((writer_blocked_eq_false s).mp hb) h
    simp [writer_lock_enter, writer_lock_resume, hb]
  · intro h
    have hb := (writer_blocked_eq_false s).mpr h
    simp [writer_lock_resume, hb, h.2, incr_zero]
  · intro u hs hlt hu hww
    have hbs : writer_blocked s = true := by
      cases hb : writer_blocked s with
      | true => rfl
      | false => exact absurd ((writer_blocked_eq_false s).mp hb) hs
    have hbu := (writer_blocked_eq_false u).mpr hu
    simp only [writer_lock_enter, hbs, if_true] at hww
    simp only [writer_lock_resume, hbu, Bool.false_eq_true, if_false, hww, decr_incr]
    exact Nat.mod_eq_of_lt hlt

/-- Witness of C10: with two readers active and one writer already waiting, an arriving writer
raises `waiting_writers_` from 1 to 2 and waits, and a woken writer waits again; in the state
where the readers have left, the woken writer lowers `waiting_writers_` back to 1 and sets
`writers_` to 1; from the all-zero state an arriving writer is admitted at once. -/
theorem write_admission_witness :
    (writer_lock_enter ⟨2, 0, 0, 1⟩ = (⟨2, 0, 0, 2⟩, false)
        ∧ writer_lock_resume ⟨2, 0, 0, 1⟩ = (⟨2, 0, 0, 1⟩, false))
      ∧ (writer_lock_resume ⟨0, 0, 0, 2⟩).1.waiting_writers_ = 1
      ∧ writer_lock_resume ⟨0, 0, 0, 2⟩ = (⟨0, 1, 0, 1⟩, true)
      ∧ writer_lock_enter ⟨0, 0, 0, 0⟩ = (⟨0, 1, 0, 0⟩, true) :=
  ⟨(write_admission ⟨2, 0, 0, 1⟩).2.2.2.1 (by decide),
    (write_admission ⟨2, 0, 0, 1⟩).2.2.2.2.2 ⟨0, 0, 0, 2⟩ (by decide) (by decide) (by decide)
      (by decide),
    (write_admission ⟨0, 0, 0, 2⟩).2.2.2.2.1 (by decide),
    (write_admission ⟨0, 0, 0, 0⟩).2.2.1 (by decide)⟩

end RWLock

/-! ## Theorems: releases and wrappers of the lock -/

namespace RWLock

/-- Counterexample to C11 as stated: in the reachable state with two active readers and one
waiting writer, `reader_unlock` broadcasts on `write_cond` although one reader is still active
after the decrement, so the broadcast is not equivalent to "last reader and a writer waits". -/
theorem reader_unlock_wakes_with_reader_left :
    Reachable ⟨2, 0, 0, 1⟩
      ∧ (reader_unlock ⟨2, 0, 0, 1⟩).1.readers_ = 1
      ∧ (reader_unlock ⟨2, 0, 0, 1⟩).2 = Wake.broadcast_write_cond
      ∧ ¬ ((reader_unlock ⟨2, 0, 0, 1⟩).2 = Wake.broadcast_write_cond
            ↔ ((reader_unlock ⟨2, 0, 0, 1⟩).1.readers_ = 0
                ∧ 0 < (⟨2, 0, 0, 1⟩ : RWLock).waiting_writers_)) :=
  ⟨⟨[Event.reader_enter, Event.reader_enter, Event.writer_enter], by decide⟩,
    by decide, by decide, by decide⟩

/-- C11 (amended): on read release `readers_` is decremented and nothing else changes; the
lock broadcasts on `write_cond` if and only if `waiting_writers_ > 0`, whether or not the
departing reader was the last active reader, and otherwise wakes nothing; when other readers
are still active after the decrement, a woken writer waits again without changing the lock. -/
theorem read_release (s : RWLock) :
    (reader_unlock s).1 = { s with readers_ := decr s.readers_ }
      ∧ ((reader_unlock s).2 = Wake.broadcast_write_cond ↔ 0 < s.waiting_writers_)
      ∧ ((reader_unlock s).2 = Wake.nothing ↔ s.waiting_writers_ = 0)
      ∧ (0 < (reader_unlock s).1.readers_ →
          writer_lock_resume (reader_unlock s).1 = ((reader_unlock s).1, false)) := by
  refine ⟨rfl, ?_, ?_, ?_⟩
  · by_cases hw : 0 < s.waiting_writers_
    · simp [reader_unlock, hw]
    · simp [reader_unlock, hw]
  · by_cases hw : 0 < s.waiting_writers_
    · simp [reader_unlock, hw]
      omega
    · simp [reader_unlock, hw]
      omega
  · intro hpos
    have hb : writer_blocked (reader_unlock s).1 = true := by
      simp only [writer_blocked, Bool.or_eq_true, decide_eq_true_eq]
      exact Or.inl hpos
    simp [writer_lock_resume, hb]

/-- Witness of C11 (amended): from two active readers and one waiting writer, the release
leaves one reader active and a writer woken by the broadcast waits again. -/
theorem read_release_witness :
    writer_lock_resume (reader_unlock ⟨2, 0, 0, 1⟩).1 = ((reader_unlock ⟨2, 0, 0, 1⟩).1, false) :=
  (read_release ⟨2, 0, 0, 1⟩).2.2.2 (by decide)

/-- C12 (write release): `write_unlock` decrements `writers_` and changes nothing else; then,
if `waiting_writers_ > 0`, it signals `write_cond` once and does not touch `read_cond`;
otherwise, if `waiting_readers_ > 0`, it broadcasts on `read_cond`; otherwise it wakes
nothing. -/
theorem write_release (s : RWLock) :
    (write_unlock s).1 = { s with writers_ := decr s.writers_ }
      ∧ (0 < s.waiting_writers_ → (write_unlock s).2 = Wake.signal_write_cond)
      ∧ (s.waiting_writers_ = 0 → 0 < s.waiting_readers_ →
          (write_unlock s).2 = Wake.broadcast_read_cond)
      ∧ (s.waiting_writers_ = 0 → s.waiting_readers_ = 0 →
          (write_unlock s).2 = Wake.nothing) := by
  refine ⟨rfl, ?_, ?_, ?_⟩
  · intro h
    simp [write_unlock, h]
  · intro h1 h2
    simp [write_unlock, h1, h2]
  · intro h1 h2
    simp [write_unlock, h1, h2]

/-- Witness of C12: with a writer and two readers waiting the writer is signalled; with only
two readers waiting they are all woken; with nobody waiting nothing is woken. -/
theorem write_release_witness :
    (write_unlock ⟨0, 1, 2, 1⟩).2 = Wake.signal_write_cond
      ∧ (write_unlock ⟨0, 1, 2, 0⟩).2 = Wake.broadcast_read_cond
      ∧ (write_unlock ⟨0, 1, 0, 0⟩).2 = Wake.nothing :=
  ⟨(write_release ⟨0, 1, 2, 1⟩).2.1 (by decide),
    (write_release ⟨0, 1, 2, 0⟩).2.2.1 (by decide) (by decide),
    (write_release ⟨0, 1, 0, 0⟩).2.2.2 (by decide) (by decide)⟩

/-- C13 (wrappers): for a callable that returns a value or throws and does not touch the lock,
started from a state where admission is immediate, `read` and `write` return exactly the value
of the callable or rethrow exactly its error, and in both cases the lock afterwards equals the
lock before the call: the lock was released exactly once. -/
theorem wrappers_release {ε α : Type} (s : RWLock) (func : Except ε α) :
    (reader_blocked s = false → s.readers_ < SIZE_T_MOD → read s func = some (s, func))
      ∧ (writer_blocked s = false → write s func = some (s, func)) := by
  constructor
  · intro hb hlt
    have hback : decr (incr s.readers_) = s.readers_ := by
      rw [decr_incr]
      exact Nat.mod_eq_of_lt hlt
    cases func with
    | ok result => simp [read, reader_lock_enter, reader_unlock, hb, hback]
    | error thrown => simp [read, reader_lock_enter, reader_unlock, hb, hback]
  · intro hb
    obtain ⟨_, hw⟩ := (writer_blocked_eq_false s).mp hb
    have hback : decr (incr s.writers_) = s.writers_ := by
      rw [hw, incr_zero, decr_one]
    cases func with
    | ok result => simp [write, writer_lock_enter, write_unlock, hb, hback]
    | error thrown => simp [write, writer_lock_enter, write_unlock, hb, hback]

/-- Witness of C13: with two active readers a `read` whose callable throws rethrows the same
error and leaves the lock as it was; on the idle lock a `write` returns the value of the
callable and leaves the lock idle. -/
theorem wrappers_release_witness :
    read ⟨2, 0, 0, 0⟩ (Except.error 7 : Except Nat Bool)
        = some (⟨2, 0, 0, 0⟩, Except.error 7)
      ∧ write ⟨0, 0, 0, 0⟩ (Except.ok true : Except Nat Bool)
        = some (⟨0, 0, 0, 0⟩, Except.ok true) :=
  ⟨(wrappers_release ⟨2, 0, 0, 0⟩ (Except.error 7)).1 (by decide) (by decide),
    (wrappers_release ⟨0, 0, 0, 0⟩ (Except.ok true)).2 (by decide)⟩

end RWLock

/-! ## Theorems: placement, shape of the operations, commutation and frame -/

namespace HashMap

variable {K V : Type} [DecidableEq K]

/-- Every call acts on the bucket of its key only: the map afterwards is the old map with that
bucket replaced by a function of the old bucket, and the returned value is a function of the
old bucket. -/
theorem call_local (SZ : Nat) (hasher : K → Nat) (op : Op K V) :
    ∃ (g : List (K × V) → List (K × V)) (r : List (K × V) → Ret V), ∀ m : HashMap K V,
      call SZ hasher m op
        = (⟨m.hash_map.set (hash_fn SZ hasher op.key)
              (g (m.bucket_at (hash_fn SZ hasher op.key)))⟩,
            r (m.bucket_at (hash_fn SZ hasher op.key))) := by
  cases op with
  | insert key value =>
    exact ⟨insert_bucket key value, fun _ => Ret.unit, fun m => rfl⟩
  | lookup key =>
    refine ⟨fun b => b, fun b => Ret.value (lookup_scan key b), fun m => ?_⟩
    simp only [call, Op.key, lookup_k]
    rw [set_bucket_at_self]
  | delete key =>
    exact ⟨remove_if_key key,
      fun b => Ret.flag ((remove_if_key key b).length != b.length), fun m => rfl⟩

theorem call_bucket_at_other (SZ : Nat) (hasher : K → Nat) (m : HashMap K V) (op : Op K V)
    (j : Nat) (hj : j ≠ hash_fn SZ hasher op.key) :
    (call SZ hasher m op).1.bucket_at j = m.bucket_at j := by
  obtain ⟨g, r, h⟩ := call_local SZ hasher op
  rw [h m]
  simp only [bucket_at_set]
  rw [if_neg]
  intro hc
  exact hj hc.1.symm

theorem call_reads_bucket (SZ : Nat) (hasher : K → Nat) (m m' : HashMap K V) (op : Op K V)
    (hlen : m'.hash_map.length = m.hash_map.length)
    (hb : m'.bucket_at (hash_fn SZ hasher op.key) = m.bucket_at (hash_fn SZ hasher op.key)) :
    (call SZ hasher m' op).2 = (call SZ hasher m op).2
      ∧ (call SZ hasher m' op).1.bucket_at (hash_fn SZ hasher op.key)
          = (call SZ hasher m op).1.bucket_at (hash_fn SZ hasher op.key) := by
  obtain ⟨g, r, h⟩ := call_local SZ hasher op
  rw [h m, h m']
  simp only [bucket_at_set, hb, hlen, true_and]

/-- C15 (placement): for `SZ > 0`, in every map reachable from the newly constructed map the
number of buckets is exactly `SZ` and every entry stored in bucket `i` has a key with
`hash_fn key = i`; every call on a key uses the index `hash_fn key`, which is below `SZ`,
leaves every other bucket as it was, and its returned value and the new content of that
bucket depend on the old content of that bucket only. -/
theorem placement (SZ : Nat) (hasher : K → Nat) (m : HashMap K V)
    (hSZ : 0 < SZ) (hreach : Reachable SZ hasher m) :
    m.hash_map.length = SZ
      ∧ (∀ i : Nat, ∀ e ∈ m.bucket_at i, hash_fn SZ hasher e.1 = i)
      ∧ (∀ op : Op K V,
          hash_fn SZ hasher op.key < SZ
            ∧ (∀ j : Nat, j ≠ hash_fn SZ hasher op.key →
                (call SZ hasher m op).1.bucket_at j = m.bucket_at j)
            ∧ (∀ m' : HashMap K V, m'.hash_map.length = SZ →
                m'.bucket_at (hash_fn SZ hasher op.key)
                  = m.bucket_at (hash_fn SZ hasher op.key) →
                (call SZ hasher m' op).2 = (call SZ hasher m op).2
                  ∧ (call SZ hasher m' op).1.bucket_at (hash_fn SZ hasher op.key)
                      = (call SZ hasher m op).1.bucket_at (hash_fn SZ hasher op.key))) := by
  obtain ⟨hok, hlen⟩ := reachable_ok SZ hasher m hreach
  refine ⟨hlen, fun i => (hok i).1, fun op => ⟨hash_fn_lt SZ hasher op.key hSZ, ?_, ?_⟩⟩
  · intro j hj
    exact call_bucket_at_other SZ hasher m op j hj
  · intro m' hlen' hb
    exact call_reads_bucket SZ hasher m m' op (hlen'.trans hlen.symm) hb

/-- Witness of C15: ten buckets, identity hash, the map reached by inserting 3, 13 and 4 and
deleting 3. -/
theorem placement_witness :
    (run 10 (fun n : Nat => n) (new Nat Nat 10)
        [Op.insert 3 4, Op.insert 13 10, Op.insert 4 1, Op.delete 3]).hash_map.length = 10
      ∧ ∀ i : Nat, ∀ e ∈ (run 10 (fun n : Nat => n) (new Nat Nat 10)
          [Op.insert 3 4, Op.insert 13 10, Op.insert 4 1, Op.delete 3]).bucket_at i,
          hash_fn 10 (fun n : Nat => n) e.1 = i :=
  ⟨(placement 10 (fun n : Nat => n) _ (by decide)
      ⟨[Op.insert 3 4, Op.insert 13 10, Op.insert 4 1, Op.delete 3], rfl⟩).1,
    (placement 10 (fun n : Nat => n) _ (by decide)
      ⟨[Op.insert 3 4, Op.insert 13 10, Op.insert 4 1, Op.delete 3], rfl⟩).2.1⟩

theorem insert_scan_absent (key : K) (value : V) (bucket : List (K × V))
    (h : ∀ e ∈ bucket, e.1 ≠ key) : insert_scan key value bucket = (bucket, false) := by
  induction bucket with
  | nil => rfl
  | cons e rest ih =>
    obtain ⟨k, v⟩ := e
    have hk : k ≠ key := h (k, v) (List.mem_cons_self _ _)
    have hrest := ih (fun e he => h e (List.mem_cons_of_mem _ he))
    simp [insert_scan, hk, hrest]

theorem insert_scan_present (key : K) (value : V) (bucket : List (K × V))
    (h : ∃ e ∈ bucket, e.1 = key) :
    ∃ (pre : List (K × V)) (old : V) (post : List (K × V)),
      bucket = pre ++ (key, old) :: post ∧ (∀ e ∈ pre, e.1 ≠ key)
        ∧ insert_scan key value bucket = (pre ++ (key, value) :: post, true) := by
  induction bucket with
  | nil =>
    obtain ⟨e, he, _⟩ := h
    exact absurd he (List.not_mem_nil e)
  | cons e rest ih =>
    obtain ⟨k, v⟩ := e
    by_cases hk : k = key
    · subst hk
      exact ⟨[], v, rest, rfl, by simp, by simp [insert_scan]⟩
    · have hrest : ∃ e ∈ rest, e.1 = key := by
        obtain ⟨e, he, hek⟩ := h
        rcases List.mem_cons.mp he with h1 | h1
        · rw [h1] at hek
          exact absurd hek hk
        · exact ⟨e, h1, hek⟩
      obtain ⟨pre, old, post, hsplit, hpre, hscan⟩ := ih hrest
      refine ⟨(k, v) :: pre, old, post, ?_, ?_, ?_⟩
      · rw [hsplit]
        rfl
      · intro e he
        rcases List.mem_cons.mp he with h1 | h1
        · rw [h1]
          exact hk
        · exact hpre e h1
      · simp [insert_scan, hk, hscan]

/-- C16 (shape of insert): for `SZ > 0` and every map with its `SZ` buckets, whatever the bucket
of the key holds: if some entry of it has a key equal to `key`, the bucket after `insert_kv`
has the same length and the same entries in the same positions except that the first entry
with that key now holds the new value; if no entry has that key, the bucket after the call is
the old bucket with `(key, value)` appended at the end. -/
theorem insert_shape (SZ : Nat) (hasher : K → Nat) (m : HashMap K V) (key : K) (value : V)
    (hSZ : 0 < SZ) (hlen : m.hash_map.length = SZ) :
    ((∃ e ∈ m.bucket_at (hash_fn SZ hasher key), e.1 = key) →
        ∃ (pre : List (K × V)) (old : V) (post : List (K × V)),
          m.bucket_at (hash_fn SZ hasher key) = pre ++ (key, old) :: post
            ∧ (∀ e ∈ pre, e.1 ≠ key)
            ∧ (insert_kv SZ hasher m key value).bucket_at (hash_fn SZ hasher key)
                = pre ++ (key, value) :: post
            ∧ ((insert_kv SZ hasher m key value).bucket_at (hash_fn SZ hasher key)).length
                = (m.bucket_at (hash_fn SZ hasher key)).length)
      ∧ ((∀ e ∈ m.bucket_at (hash_fn SZ hasher key), e.1 ≠ key) →
          (insert_kv SZ hasher m key value).bucket_at (hash_fn SZ hasher key)
            = m.bucket_at (hash_fn SZ hasher key) ++ [(key, value)]) := by
  have hlt : hash_fn SZ hasher key < m.hash_map.length := by
    rw [hlen]
    exact hash_fn_lt SZ hasher key hSZ
  have hb : (insert_kv SZ hasher m key value).bucket_at (hash_fn SZ hasher key)
      = insert_bucket key value (m.bucket_at (hash_fn SZ hasher key)) := by
    simp only [insert_kv, bucket_at_set, hlt, and_self, if_true]
  rw [hb]
  constructor
  · intro hex
    obtain ⟨pre, old, post, hsplit, hpre, hscan⟩ :=
      insert_scan_present key value (m.bucket_at (hash_fn SZ hasher key)) hex
    refine ⟨pre, old, post, hsplit, hpre, ?_, ?_⟩
    · simp [insert_bucket, hscan]
    · simp only [insert_bucket, hscan, if_true]
      rw [hsplit]
      simp
  · intro habs
    simp [insert_bucket, insert_scan_absent key value _ habs]

/-- Witness of C16: three buckets, identity hash; bucket 1 holds keys 7, 4, 4.  Inserting
(4, 9) replaces the value of the first entry with key 4; inserting (1, 9) appends. -/
theorem insert_shape_witness :
    (∃ (pre : List (Nat × Nat)) (old : Nat) (post : List (Nat × Nat)),
        (⟨[[], [(7, 0), (4, 1), (4, 2)], []]⟩ : HashMap Nat Nat).bucket_at
            (hash_fn 3 (fun n : Nat => n) 4) = pre ++ (4, old) :: post
          ∧ (∀ e ∈ pre, e.1 ≠ 4)
          ∧ (insert_kv 3 (fun n : Nat => n) ⟨[[], [(7, 0), (4, 1), (4, 2)], []]⟩ 4 9).bucket_at
              (hash_fn 3 (fun n : Nat => n) 4) = pre ++ (4, 9) :: post
          ∧ ((insert_kv 3 (fun n : Nat => n) ⟨[[], [(7, 0), (4, 1), (4, 2)], []]⟩ 4 9).bucket_at
              (hash_fn 3 (fun n : Nat => n) 4)).length
                = ((⟨[[], [(7, 0), (4, 1), (4, 2)], []]⟩ : HashMap Nat Nat).bucket_at
                    (hash_fn 3 (fun n : Nat => n) 4)).length)
      ∧ (insert_kv 3 (fun n : Nat => n) ⟨[[], [(7, 0), (4, 1), (4, 2)], []]⟩ 1 9).bucket_at
            (hash_fn 3 (fun n : Nat => n) 1)
          = (⟨[[], [(7, 0), (4, 1), (4, 2)], []]⟩ : HashMap Nat Nat).bucket_at
              (hash_fn 3 (fun n : Nat => n) 1) ++ [(1, 9)] :=
  ⟨(insert_shape 3 (fun n : Nat => n) ⟨[[], [(7, 0), (4, 1), (4, 2)], []]⟩ 4 9
      (by decide) (by decide)).1 ⟨(4, 1), by decide, rfl⟩,
    (insert_shape 3 (fun n : Nat => n) ⟨[[], [(7, 0), (4, 1), (4, 2)], []]⟩ 1 9
      (by decide) (by decide)).2 (by decide)⟩

end HashMap

namespace HashMap

variable {K V : Type} [DecidableEq K]

/-- C17 (shape of delete): for `SZ > 0` and every map with its `SZ` buckets, whatever the
bucket of the key holds (several entries with the key included): after `delete_k(key)` the
bucket equals the old bucket filtered to the entries with a key different from `key`; no entry
with that key is left, every other entry is kept, the kept entries are in their original
relative order, and the other buckets are as before. -/
theorem delete_shape (SZ : Nat) (hasher : K → Nat) (m : HashMap K V) (key : K)
    (hSZ : 0 < SZ) (hlen : m.hash_map.length = SZ) :
    (delete_k SZ hasher m key).1.bucket_at (hash_fn SZ hasher key)
        = (m.bucket_at (hash_fn SZ hasher key)).filter (fun e => decide (e.1 ≠ key))
      ∧ (∀ e ∈ (delete_k SZ hasher m key).1.bucket_at (hash_fn SZ hasher key), e.1 ≠ key)
      ∧ (∀ e ∈ m.bucket_at (hash_fn SZ hasher key), e.1 ≠ key →
          e ∈ (delete_k SZ hasher m key).1.bucket_at (hash_fn SZ hasher key))
      ∧ List.Sublist ((delete_k SZ hasher m key).1.bucket_at (hash_fn SZ hasher key))
          (m.bucket_at (hash_fn SZ hasher key))
      ∧ (∀ j : Nat, j ≠ hash_fn SZ hasher key →
          (delete_k SZ hasher m key).1.bucket_at j = m.bucket_at j) := by
  have hlt : hash_fn SZ hasher key < m.hash_map.length := by
    rw [hlen]
    exact hash_fn_lt SZ hasher key hSZ
  have hb : (delete_k SZ hasher m key).1.bucket_at (hash_fn SZ hasher key)
      = (m.bucket_at (hash_fn SZ hasher key)).filter (fun e => decide (e.1 ≠ key)) := by
    simp only [delete_k, bucket_at_set, hlt, and_self, if_true, remove_if_key]
    congr 1
    funext e
    simp
  refine ⟨hb, ?_, ?_, ?_, ?_⟩
  · intro e he
    rw [hb] at he
    simpa using (List.mem_filter.mp he).2
  · intro e he hne
    rw [hb]
    exact List.mem_filter.mpr ⟨he, by simpa using hne⟩
  · rw [hb]
    exact List.filter_sublist _
  · intro j hj
    exact call_bucket_at_other SZ hasher m (Op.delete key) j hj

/-- Witness of C17: three buckets, identity hash; bucket 1 holds keys 7, 4, 1, 4 and deleting
key 4 leaves the entries with keys 7 and 1 in that order. -/
theorem delete_shape_witness :
    (delete_k 3 (fun n : Nat => n)
        (⟨[[], [(7, 0), (4, 1), (1, 5), (4, 2)], []]⟩ : HashMap Nat Nat) 4).1.bucket_at
          (hash_fn 3 (fun n : Nat => n) 4)
      = ((⟨[[], [(7, 0), (4, 1), (1, 5), (4, 2)], []]⟩ : HashMap Nat Nat).bucket_at
          (hash_fn 3 (fun n : Nat => n) 4)).filter (fun e => decide (e.1 ≠ 4)) :=
  (delete_shape 3 (fun n : Nat => n) ⟨[[], [(7, 0), (4, 1), (1, 5), (4, 2)], []]⟩ 4
    (by decide) (by decide)).1

/-- C18 (commutation): for every map and any two calls (in particular any two of `insert_kv`
and `delete_k`) on keys whose bucket indices differ, the two orders of the calls end in exactly
the same map, and each call returns the same value in both orders, namely the value it returns
on the original map. -/
theorem calls_commute (SZ : Nat) (hasher : K → Nat) (m : HashMap K V) (op1 op2 : Op K V)
    (hne : hash_fn SZ hasher op1.key ≠ hash_fn SZ hasher op2.key) :
    (call SZ hasher (call SZ hasher m op1).1 op2).1
        = (call SZ hasher (call SZ hasher m op2).1 op1).1
      ∧ (call SZ hasher (call SZ hasher m op2).1 op1).2 = (call SZ hasher m op1).2
      ∧ (call SZ hasher (call SZ hasher m op1).1 op2).2 = (call SZ hasher m op2).2 := by
  obtain ⟨g1, r1, h1⟩ := call_local SZ hasher op1
  obtain ⟨g2, r2, h2⟩ := call_local SZ hasher op2
  have hb12 : (call SZ hasher m op1).1.bucket_at (hash_fn SZ hasher op2.key)
      = m.bucket_at (hash_fn SZ hasher op2.key) :=
    call_bucket_at_other SZ hasher m op1 _ (Ne.symm hne)
  have hb21 : (call SZ hasher m op2).1.bucket_at (hash_fn SZ hasher op1.key)
      = m.bucket_at (hash_fn SZ hasher op1.key) :=
    call_bucket_at_other SZ hasher m op2 _ hne
  refine ⟨?_, ?_, ?_⟩
  · rw [h2 (call SZ hasher m op1).1, h1 (call SZ hasher m op2).1, hb12, hb21, h1 m, h2 m]
    simp only [HashMap.mk.injEq]
    exact List.set_comm _ _ _ hne
  · rw [h1 (call SZ hasher m op2).1, hb21, h1 m]
  · rw [h2 (call SZ hasher m op1).1, hb12, h2 m]

/-- Witness of C18: ten buckets, identity hash; inserting (5, 1) and deleting 13 (buckets 5
and 3) in either order from the map holding 3, 13 and 5. -/
theorem calls_commute_witness :
    (call 10 (fun n : Nat => n)
        (call 10 (fun n : Nat => n)
          (⟨[[], [], [], [(3, 4), (13, 10)], [], [(5, 0)], [], [], [], []]⟩ : HashMap Nat Nat)
          (Op.insert 5 1)).1 (Op.delete 13)).1
      = (call 10 (fun n : Nat => n)
        (call 10 (fun n : Nat => n)
          (⟨[[], [], [], [(3, 4), (13, 10)], [], [(5, 0)], [], [], [], []]⟩ : HashMap Nat Nat)
          (Op.delete 13)).1 (Op.insert 5 1)).1 :=
  (calls_commute 10 (fun n : Nat => n)
    ⟨[[], [], [], [(3, 4), (13, 10)], [], [(5, 0)], [], [], [], []]⟩
    (Op.insert 5 1) (Op.delete 13) (by decide)).1

/-- C20 (frame across keys): for every map and any two keys that are not equal, also when they
share a bucket, neither `insert_kv(key, value)` nor `delete_k(key)` changes the result of
`lookup_k(key')`; and `lookup_k` leaves the map as it was. -/
theorem frame_other_key (SZ : Nat) (hasher : K → Nat) (m : HashMap K V)
    (key key' : K) (value : V) (hne : key ≠ key') :
    lookup_k SZ hasher (call SZ hasher m (Op.insert key value)).1 key'
        = lookup_k SZ hasher m key'
      ∧ lookup_k SZ hasher (call SZ hasher m (Op.delete key)).1 key'
        = lookup_k SZ hasher m key'
      ∧ (call SZ hasher m (Op.lookup key)).1 = m
      ∧ (call SZ hasher m (Op.lookup key')).1 = m :=
  ⟨lookup_k_insert_kv_other SZ hasher m key' key value hne,
    lookup_k_delete_k_other SZ hasher m key' key hne, rfl, rfl⟩

/-- Witness of C20: three buckets, identity hash; keys 4 and 7 share bucket 1. -/
theorem frame_other_key_witness :
    lookup_k 3 (fun n : Nat => n)
        (call 3 (fun n : Nat => n) (⟨[[], [(7, 0), (4, 1)], []]⟩ : HashMap Nat Nat)
          (Op.insert 4 9)).1 7
        = lookup_k 3 (fun n : Nat => n) (⟨[[], [(7, 0), (4, 1)], []]⟩ : HashMap Nat Nat) 7
      ∧ lookup_k 3 (fun n : Nat => n)
        (call 3 (fun n : Nat => n) (⟨[[], [(7, 0), (4, 1)], []]⟩ : HashMap Nat Nat)
          (Op.delete 4)).1 7
        = lookup_k 3 (fun n : Nat => n) (⟨[[], [(7, 0), (4, 1)], []]⟩ : HashMap Nat Nat) 7 :=
  ⟨(frame_other_key 3 (fun n : Nat => n) ⟨[[], [(7, 0), (4, 1)], []]⟩ 4 7 9 (by decide)).1,
    (frame_other_key 3 (fun n : Nat => n) ⟨[[], [(7, 0), (4, 1)], []]⟩ 4 7 9 (by decide)).2.1⟩

end HashMap

/-! ## Theorems: the memoizing wrapper -/

namespace HashMap

variable {K V : Type} [DecidableEq K]

theorem lookup_scan_mem (key : K) (v : V) (bucket : List (K × V))
    (h : lookup_scan key bucket = some v) : (key, v) ∈ bucket := by
  induction bucket with
  | nil => simp [lookup_scan] at h
  | cons e rest ih =>
    obtain ⟨k, w⟩ := e
    by_cases hk : k = key
    · simp only [lookup_scan, hk, if_true, Option.some.injEq] at h
      rw [hk, h]
      exact List.mem_cons_self _ _
    · simp only [lookup_scan, hk, if_false] at h
      exact List.mem_cons_of_mem _ (ih h)

theorem insert_scan_mem (key : K) (value : V) (bucket : List (K × V)) (e : K × V)
    (h : e ∈ (insert_scan key value bucket).1) : e ∈ bucket ∨ e = (key, value) := by
  induction bucket with
  | nil => simp [insert_scan] at h
  | cons e0 rest ih =>
    obtain ⟨k, w⟩ := e0
    by_cases hk : k = key
    · simp only [insert_scan, hk, if_true] at h
      rcases List.mem_cons.mp h with h1 | h1
      · exact Or.inr h1
      · exact Or.inl (List.mem_cons_of_mem _ h1)
    · simp only [insert_scan, hk, if_false] at h
      rcases List.mem_cons.mp h with h1 | h1
      · rw [h1]
        exact Or.inl (List.mem_cons_self _ _)
      · rcases ih h1 with h2 | h2
        · exact Or.inl (List.mem_cons_of_mem _ h2)
        · exact Or.inr h2

theorem insert_bucket_mem (key : K) (value : V) (bucket : List (K × V)) (e : K × V)
    (h : e ∈ insert_bucket key value bucket) : e ∈ bucket ∨ e = (key, value) := by
  unfold insert_bucket at h
  split at h
  · exact insert_scan_mem key value bucket e h
  · rcases List.mem_append.mp h with h1 | h1
    · exact insert_scan_mem key value bucket e h1
    · exact Or.inr (List.mem_singleton.mp h1)

end HashMap

namespace CacheFunction

open HashMap

variable {K V : Type} [DecidableEq K]

/-- One call keeps: every stored value is `get_ratio` of its key; and it returns `get_ratio`
of the snapshot when the map is so. -/
theorem change_ratio_values (SZ : Nat) (hasher : K → Nat) (get_ratio : K → V)
    (m : HashMap K V) (snapshot : K)
    (h : ∀ i : Nat, ∀ e ∈ m.bucket_at i, e.2 = get_ratio e.1) :
    (change_ratio SZ hasher get_ratio m snapshot).2 = get_ratio snapshot
      ∧ (∀ i : Nat, ∀ e ∈ (change_ratio SZ hasher get_ratio m snapshot).1.bucket_at i,
          e.2 = get_ratio e.1) := by
  unfold change_ratio
  cases hl : lookup_k SZ hasher m snapshot with
  | some ret =>
    refine ⟨?_, h⟩
    exact h _ (snapshot, ret) (lookup_scan_mem snapshot ret _ hl)
  | none =>
    refine ⟨rfl, ?_⟩
    intro i e he
    simp only [insert_kv, bucket_at_set] at he
    split at he
    · rcases insert_bucket_mem _ _ _ e he with h1 | h1
      · exact h _ e h1
      · rw [h1]
    · exact h i e he

theorem change_ratio_ok (SZ : Nat) (hasher : K → Nat) (get_ratio : K → V)
    (m : HashMap K V) (snapshot : K) (h : all_buckets_ok SZ hasher m) :
    all_buckets_ok SZ hasher (change_ratio SZ hasher get_ratio m snapshot).1 := by
  unfold change_ratio
  cases hl : lookup_k SZ hasher m snapshot with
  | some ret => exact h
  | none => exact all_buckets_ok_call SZ hasher m (Op.insert snapshot (get_ratio snapshot)) h

theorem change_ratio_length (SZ : Nat) (hasher : K → Nat) (get_ratio : K → V)
    (m : HashMap K V) (snapshot : K) :
    (change_ratio SZ hasher get_ratio m snapshot).1.hash_map.length = m.hash_map.length := by
  unfold change_ratio
  cases hl : lookup_k SZ hasher m snapshot with
  | some ret => rfl
  | none => simp [insert_kv]

/-- After a call for `snapshot` the map holds it, and a call for any snapshot keeps the keys
that the map holds. -/
theorem change_ratio_present (SZ : Nat) (hasher : K → Nat) (get_ratio : K → V)
    (m : HashMap K V) (snapshot s : K) (hSZ : 0 < SZ) (hlen : m.hash_map.length = SZ)
    (h : (lookup_k SZ hasher m s).isSome = true ∨ s = snapshot) :
    (lookup_k SZ hasher (change_ratio SZ hasher get_ratio m snapshot).1 s).isSome = true := by
  unfold change_ratio
  cases hl : lookup_k SZ hasher m snapshot with
  | some ret =>
    rcases h with h1 | h1
    · exact h1
    · rw [h1, hl]
      rfl
  | none =>
    by_cases hs : s = snapshot
    · rw [hs, lookup_k_insert_kv_same SZ hasher m snapshot _
        (by rw [hlen]; exact hash_fn_lt SZ hasher snapshot hSZ)]
      rfl
    · rw [lookup_k_insert_kv_other SZ hasher m s snapshot _ (Ne.symm hs)]
      rcases h with h1 | h1
      · exact h1
      · exact absurd h1 hs

theorem change_ratios_spec (SZ : Nat) (hasher : K → Nat) (get_ratio : K → V) (hSZ : 0 < SZ)
    (snapshots : List K) :
    ∀ m : HashMap K V, m.hash_map.length = SZ → all_buckets_ok SZ hasher m →
      (∀ i : Nat, ∀ e ∈ m.bucket_at i, e.2 = get_ratio e.1) →
      (change_ratios SZ hasher get_ratio m snapshots).2 = snapshots.map get_ratio
        ∧ (change_ratios SZ hasher get_ratio m snapshots).1.hash_map.length = SZ
        ∧ all_buckets_ok SZ hasher (change_ratios SZ hasher get_ratio m snapshots).1
        ∧ (∀ i : Nat, ∀ e ∈ (change_ratios SZ hasher get_ratio m snapshots).1.bucket_at i,
            e.2 = get_ratio e.1)
        ∧ (∀ s : K, (lookup_k SZ hasher m s).isSome = true ∨ s ∈ snapshots →
            (lookup_k SZ hasher (change_ratios SZ hasher get_ratio m snapshots).1 s).isSome
              = true) := by
  induction snapshots with
  | nil =>
    intro m hlen hok hval
    refine ⟨rfl, hlen, hok, hval, ?_⟩
    intro s hs
    rcases hs with h1 | h1
    · exact h1
    · exact absurd h1 (List.not_mem_nil s)
  | cons snapshot rest ih =>
    intro m hlen hok hval
    obtain ⟨hret, hval1⟩ := change_ratio_values SZ hasher get_ratio m snapshot hval
    have hok1 := change_ratio_ok SZ hasher get_ratio m snapshot hok
    have hlen1 := (change_ratio_length SZ hasher get_ratio m snapshot).trans hlen
    obtain ⟨h1, h2, h3, h4, h5⟩ := ih _ hlen1 hok1 hval1
    simp only [change_ratios]
    refine ⟨?_, h2, h3, h4, ?_⟩
    · rw [h1, hret]
      rfl
    · intro s hs
      apply h5 s
      rcases hs with hs1 | hs1
      · exact Or.inl (change_ratio_present SZ hasher get_ratio m snapshot s hSZ hlen
          (Or.inl hs1))
      · rcases List.mem_cons.mp hs1 with hs2 | hs2
        · exact Or.inl (change_ratio_present SZ hasher get_ratio m snapshot s hSZ hlen
            (Or.inr hs2))
        · exact Or.inr hs2

/-- C19 (memoizing wrapper): with `get_ratio` a function of the snapshot and `SZ > 0`, for
every finite sequence of `change_ratio` calls on a freshly constructed cache, each call returns
`get_ratio` of its snapshot; a further call for a snapshot equal to one already requested
returns `get_ratio` of it and leaves the map unchanged; and the map holds at most one entry
per snapshot. -/
theorem memo_transparent (SZ : Nat) (hasher : K → Nat) (get_ratio : K → V)
    (snapshots : List K) (hSZ : 0 < SZ) :
    (change_ratios SZ hasher get_ratio (new K V SZ) snapshots).2 = snapshots.map get_ratio
      ∧ (∀ s ∈ snapshots,
          change_ratio SZ hasher get_ratio
              (change_ratios SZ hasher get_ratio (new K V SZ) snapshots).1 s
            = ((change_ratios SZ hasher get_ratio (new K V SZ) snapshots).1, get_ratio s))
      ∧ (∀ k : K,
          count_key k (change_ratios SZ hasher get_ratio (new K V SZ) snapshots).1 ≤ 1) := by
  have hval0 : ∀ i : Nat, ∀ e ∈ (new K V SZ).bucket_at i, e.2 = get_ratio e.1 := by
    intro i e he
    have hnil : (new K V SZ).bucket_at i = [] := by
      unfold bucket_at new
      by_cases hi : i < SZ
      · simp [List.getElem?_replicate, hi]
      · simp [List.getElem?_replicate, hi]
    rw [hnil] at he
    exact absurd he (List.not_mem_nil e)
  obtain ⟨h1, _, h3, h4, h5⟩ := change_ratios_spec SZ hasher get_ratio hSZ snapshots
    (new K V SZ) (by simp [new]) (all_buckets_ok_new SZ hasher) hval0
  refine ⟨h1, ?_, fun k => count_key_le_one_of_ok SZ hasher k _ h3⟩
  intro s hs
  have hsome := h5 s (Or.inr hs)
  have hv := (change_ratio_values SZ hasher get_ratio _ s h4).1
  unfold change_ratio at hv ⊢
  cases hl : lookup_k SZ hasher
      (change_ratios SZ hasher get_ratio (new K V SZ) snapshots).1 s with
  | some ret =>
    rw [hl] at hv
    simp only at hv ⊢
    rw [hv]
  | none =>
    rw [hl] at hsome
    exact absurd hsome (by simp)

/-- Witness of C19: ten buckets, identity hash, `get_ratio n = 2 * n`; the requests 3, 13, 3,
4, 13 return 6, 26, 6, 8, 26 and a further request for 13 leaves the map unchanged. -/
theorem memo_transparent_witness :
    (change_ratios 10 (fun n : Nat => n) (fun n : Nat => 2 * n) (new Nat Nat 10)
        [3, 13, 3, 4, 13]).2 = [3, 13, 3, 4, 13].map (fun n : Nat => 2 * n)
      ∧ change_ratio 10 (fun n : Nat => n) (fun n : Nat => 2 * n)
          (change_ratios 10 (fun n : Nat => n) (fun n : Nat => 2 * n) (new Nat Nat 10)
            [3, 13, 3, 4, 13]).1 13
        = ((change_ratios 10 (fun n : Nat => n) (fun n : Nat => 2 * n) (new Nat Nat 10)
            [3, 13, 3, 4, 13]).1, 2 * 13) :=
  ⟨(memo_transparent 10 (fun n : Nat => n) (fun n : Nat => 2 * n) [3, 13, 3, 4, 13]
      (by decide)).1,
    (memo_transparent 10 (fun n : Nat => n) (fun n : Nat => 2 * n) [3, 13, 3, 4, 13]
      (by decide)).2.1 13 (by decide)⟩

end CacheFunction

/-! ## Theorems: refinement of the abstract finite map -/

namespace HashMap

variable {K V : Type} [DecidableEq K]

theorem find_eq_lookup_scan (key : K) (bucket : List (K × V)) :
    (bucket.find? (fun e => decide (e.1 = key))).map Prod.snd = lookup_scan key bucket := by
  induction bucket with
  | nil => rfl
  | cons e rest ih =>
    obtain ⟨k, v⟩ := e
    by_cases hk : k = key
    · simp [List.find?_cons, lookup_scan, hk]
    · simp only [List.find?_cons, lookup_scan, hk, decide_False, if_false]
      exact ih

theorem abstraction_eq_lookup_k (SZ : Nat) (hasher : K → Nat) (m : HashMap K V) (key : K) :
    abstraction SZ hasher m key = lookup_k SZ hasher m key :=
  find_eq_lookup_scan key _

theorem abstraction_new (SZ : Nat) (hasher : K → Nat) :
    abstraction SZ hasher (new K V SZ) = AbstractMap.empty K V := by
  funext key
  have hnil : (new K V SZ).bucket_at (hash_fn SZ hasher key) = [] := by
    unfold bucket_at new
    by_cases hi : hash_fn SZ hasher key < SZ
    · simp [List.getElem?_replicate, hi]
    · simp [List.getElem?_replicate, hi]
  simp [abstraction, hnil, AbstractMap.empty]

/-- One call on the bucket array and the same call on its abstraction agree: on the map
afterwards and on the returned value. -/
theorem call_refines (SZ : Nat) (hasher : K → Nat) (m : HashMap K V) (op : Op K V)
    (hSZ : 0 < SZ) (hlen : m.hash_map.length = SZ) :
    abstraction SZ hasher (call SZ hasher m op).1
        = (AbstractMap.call (abstraction SZ hasher m) op).1
      ∧ (call SZ hasher m op).2 = (AbstractMap.call (abstraction SZ hasher m) op).2 := by
  cases op with
  | insert key value =>
    refine ⟨?_, rfl⟩
    funext k
    simp only [call, AbstractMap.call, AbstractMap.update, abstraction_eq_lookup_k]
    by_cases hk : k = key
    · rw [if_pos hk, hk]
      apply lookup_k_insert_kv_same
      rw [hlen]
      exact hash_fn_lt SZ hasher key hSZ
    · rw [if_neg hk]
      exact lookup_k_insert_kv_other SZ hasher m k key value (Ne.symm hk)
  | lookup key =>
    refine ⟨rfl, ?_⟩
    simp only [call, AbstractMap.call, abstraction_eq_lookup_k]
  | delete key =>
    constructor
    · funext k
      simp only [call, AbstractMap.call, AbstractMap.remove, abstraction_eq_lookup_k]
      by_cases hk : k = key
      · rw [if_pos hk, hk]
        exact lookup_k_delete_k_same SZ hasher m key
      · rw [if_neg hk]
        exact lookup_k_delete_k_other SZ hasher m k key (Ne.symm hk)
    · simp only [call, AbstractMap.call, abstraction_eq_lookup_k, Ret.flag.injEq]
      have h1 := delete_k_snd SZ hasher m key
      have h2 := lookup_scan_isSome key (m.bucket_at (hash_fn SZ hasher key))
      have h3 : ((delete_k SZ hasher m key).2 = true)
          ↔ ((lookup_k SZ hasher m key).isSome = true) := h1.trans h2.symm
      cases hd : (delete_k SZ hasher m key).2 with
      | true => exact (h3.mp hd).symm
      | false =>
        cases hl : (lookup_k SZ hasher m key).isSome with
        | false => rfl
        | true => rw [h3.mpr hl] at hd; exact absurd hd (by simp)

theorem run_refines (SZ : Nat) (hasher : K → Nat) (hSZ : 0 < SZ) (ops : List (Op K V)) :
    ∀ m : HashMap K V, m.hash_map.length = SZ →
      abstraction SZ hasher (run SZ hasher m ops)
          = AbstractMap.run (abstraction SZ hasher m) ops
        ∧ results SZ hasher m ops = AbstractMap.results (abstraction SZ hasher m) ops := by
  induction ops with
  | nil => intro m _; exact ⟨rfl, rfl⟩
  | cons op ops ih =>
    intro m hlen
    obtain ⟨hmap, hret⟩ := call_refines SZ hasher m op hSZ hlen
    obtain ⟨h1, h2⟩ := ih (call SZ hasher m op).1 ((length_call SZ hasher m op).trans hlen)
    simp only [run, results, AbstractMap.run, AbstractMap.results]
    rw [h1, h2, hmap, hret]
    exact ⟨rfl, rfl⟩

/-- C21 (refinement): for bucket counts `SZ > 0` and `SZ' > 0` and any hash functions, with
the abstraction that maps a key to the value of the first entry with that key in bucket
`hash_fn key`: the newly constructed map abstracts to the empty partial function; on every map
with its `SZ` buckets, `insert_kv` corresponds to point update, `delete_k` to point removal
returning whether the key was in the domain, and `lookup_k` to function application; hence for
every sequence of calls from the newly constructed map the bucket array abstracts to the
abstract map at the end and returns the same values as the abstract map, and so the same
values for any other bucket count and hash function. -/
theorem refines_abstract_map (SZ SZ' : Nat) (hasher hasher' : K → Nat) (ops : List (Op K V))
    (hSZ : 0 < SZ) (hSZ' : 0 < SZ') :
    abstraction SZ hasher (new K V SZ) = AbstractMap.empty K V
      ∧ (∀ (m : HashMap K V) (op : Op K V), m.hash_map.length = SZ →
          abstraction SZ hasher (call SZ hasher m op).1
              = (AbstractMap.call (abstraction SZ hasher m) op).1
            ∧ (call SZ hasher m op).2 = (AbstractMap.call (abstraction SZ hasher m) op).2)
      ∧ abstraction SZ hasher (run SZ hasher (new K V SZ) ops)
          = AbstractMap.run (AbstractMap.empty K V) ops
      ∧ results SZ hasher (new K V SZ) ops = AbstractMap.results (AbstractMap.empty K V) ops
      ∧ results SZ hasher (new K V SZ) ops = results SZ' hasher' (new K V SZ') ops := by
  have hnew : (new K V SZ).hash_map.length = SZ := by simp [new]
  have hnew' : (new K V SZ').hash_map.length = SZ' := by simp [new]
  obtain ⟨h1, h2⟩ := run_refines SZ hasher hSZ ops (new K V SZ) hnew
  obtain ⟨_, h2'⟩ := run_refines SZ' hasher' hSZ' ops (new K V SZ') hnew'
  rw [abstraction_new] at h1 h2
  rw [abstraction_new] at h2'
  refine ⟨abstraction_new SZ hasher, ?_, h1, h2, h2.trans h2'.symm⟩
  intro m op hlen
  exact call_refines SZ hasher m op hSZ hlen

/-- Witness of C21: three buckets with the identity hash and one bucket with a constant hash
return the same values as the abstract map on a sequence that updates key 4, deletes key 7
twice and looks up present and absent keys (4 and 7 share a bucket in both maps). -/
theorem refines_abstract_map_witness :
    results 3 (fun n : Nat => n) (new Nat Nat 3)
        [Op.insert 4 1, Op.insert 7 2, Op.lookup 4, Op.insert 4 5, Op.lookup 4, Op.delete 7,
          Op.delete 7, Op.lookup 7, Op.lookup 1]
      = AbstractMap.results (AbstractMap.empty Nat Nat)
        [Op.insert 4 1, Op.insert 7 2, Op.lookup 4, Op.insert 4 5, Op.lookup 4, Op.delete 7,
          Op.delete 7, Op.lookup 7, Op.lookup 1]
      ∧ results 3 (fun n : Nat => n) (new Nat Nat 3)
        [Op.insert 4 1, Op.insert 7 2, Op.lookup 4, Op.insert 4 5, Op.lookup 4, Op.delete 7,
          Op.delete 7, Op.lookup 7, Op.lookup 1]
      = results 1 (fun _ : Nat => 0) (new Nat Nat 1)
        [Op.insert 4 1, Op.insert 7 2, Op.lookup 4, Op.insert 4 5, Op.lookup 4, Op.delete 7,
          Op.delete 7, Op.lookup 7, Op.lookup 1] :=
  ⟨(refines_abstract_map 3 1 (fun n : Nat => n) (fun _ : Nat => 0)
      [Op.insert 4 1, Op.insert 7 2, Op.lookup 4, Op.insert 4 5, Op.lookup 4, Op.delete 7,
        Op.delete 7, Op.lookup 7, Op.lookup 1] (by decide) (by decide)).2.2.2.1,
    (refines_abstract_map 3 1 (fun n : Nat => n) (fun _ : Nat => 0)
      [Op.insert 4 1, Op.insert 7 2, Op.lookup 4, Op.insert 4 5, Op.lookup 4, Op.delete 7,
        Op.delete 7, Op.lookup 7, Op.lookup 1] (by decide) (by decide)).2.2.2.2⟩

end HashMap
